import Mathlib

/-!
# Verification of the CPU scheduling simulator (`app.py`)

Shallow embedding of the computational core of the scheduler application:
the process validator (`parse_df_to_processes`), the three schedulers
(`fcfs_scheduler`, `sjf_nonpreemptive_scheduler`, `srtf_scheduler`),
the timeline-to-Gantt merging step and the metrics computation
(`results_table_with_metrics`).

Modelling conventions:
* Python `int` time/burst values are `Nat` where the code keeps them
  non-negative by construction (arrival, burst, clock), and `Int` where
  sign matters for the stated invariants (turnaround, waiting, remaining
  burst in SRTF).
* Python's stable `list.sort(key=...)` is embedded as the stable insertion
  sort `sortStable` below; any two stable sorts agree on a total preorder,
  so this is extensionally faithful.
* The SJF and SRTF `while` loops are embedded as fueled step functions;
  fuel sufficiency is proved separately.  `srtf_scheduler` returns an
  `Option`: `none` corresponds to inputs on which the Python loop never
  terminates (e.g. a zero burst or duplicated process ids).
* A pandas `DataFrame` is embedded as a list of column names plus rows
  mapping column names to cells; a cell is `missing` (NaN), a rational
  number, or a string.
-/

/-- A process record (dataclass `Process` in the source).  `priority` is
carried but unused by all algorithms. -/
structure Process where
  pid : String
  arrival : Nat
  burst : Nat
  priority : Int := 0
  deriving Repr, DecidableEq

/-- One per-time-unit record of the animation timeline
(`{"time": t, "running": pid-or-IDLE}` in the source). -/
structure TimelineEntry where
  time : Nat
  running : String
  deriving Repr, DecidableEq

/-- One Gantt segment (`{"pid": ..., "start": ..., "finish": ...}`). -/
structure Segment where
  pid : String
  start : Nat
  finish : Nat
  deriving Repr, DecidableEq

/-- One row of the per-process results table
(`{"pid", "AT", "BT", "CT", "TAT", "WT"}`). -/
structure ResultRow where
  pid : String
  AT : Nat
  BT : Nat
  CT : Nat
  TAT : Int
  WT : Int
  deriving Repr, DecidableEq

/-- Stable insertion of one element: `x` is placed before the first
element `y` with `le x y`, hence before every element tied with it. -/
def insertLe (le : α → α → Bool) (x : α) : List α → List α
  | [] => [x]
  | y :: ys => if le x y then x :: y :: ys else y :: insertLe le x ys

/-- Stable sort (embedding of Python's stable `list.sort`). -/
def sortStable (le : α → α → Bool) : List α → List α
  | [] => []
  | x :: xs => insertLe le x (sortStable le xs)

/-- `sorted(proc_list, key=lambda p: p.arrival)`. -/
def byArrival (p q : Process) : Bool := p.arrival ≤ q.arrival

/-- `sorted(proc_list, key=lambda p: (p.arrival, p.burst))`. -/
def byArrivalBurst (p q : Process) : Bool :=
  p.arrival < q.arrival || (p.arrival = q.arrival && p.burst ≤ q.burst)

/-- `ready.sort(key=lambda p: p.burst)`. -/
def byBurst (p q : Process) : Bool := p.burst ≤ q.burst

/-- The timeline entries `{"time": t, "running": who}` for
`t in range(start, start+len)`. -/
def unitsFor (start len : Nat) (who : String) : List TimelineEntry :=
  (List.range len).map (fun i => ⟨start + i, who⟩)

/-- Body of the `for p in procs` loop of `fcfs_scheduler` (source lines
76–92), run over the whole sorted list, threading the clock `time`. -/
def fcfsLoop : List Process → Nat → List Segment × List ResultRow × List TimelineEntry
  | [], _ => ([], [], [])
  | p :: ps, time =>
      let start := max time p.arrival
      let finish := start + p.burst
      let row : ResultRow :=
        ⟨p.pid, p.arrival, p.burst, finish, (finish : Int) - p.arrival,
          (finish : Int) - p.arrival - p.burst⟩
      let rest := fcfsLoop ps finish
      (⟨p.pid, start, finish⟩ :: rest.1, row :: rest.2.1,
        unitsFor time (start - time) "IDLE" ++ unitsFor start p.burst p.pid ++ rest.2.2)

/-- `fcfs_scheduler` (source lines 65–94). -/
def fcfs_scheduler (l : List Process) : List Segment × List ResultRow × List TimelineEntry :=
  if l.isEmpty then ([], [], [])
  else fcfsLoop (sortStable byArrival l) 0

/-- State of the `sjf_nonpreemptive_scheduler` while-loop. -/
structure SjfState where
  remaining : List Process
  ready : List Process
  time : Nat
  gantt : List Segment
  results : List ResultRow
  timeline : List TimelineEntry
  deriving Repr

/-- One iteration of the `while remaining or ready` loop of
`sjf_nonpreemptive_scheduler` (source lines 109–132): move the arrived
prefix of `remaining` into `ready`; if `ready` is empty idle up to the
next arrival; otherwise stably sort `ready` by burst, pop the head and
run it to completion.  (The two `match ... | [] => s` branches are
unreachable while the loop guard holds.) -/
def sjfStep (s : SjfState) : SjfState :=
  let arrived := s.remaining.takeWhile (fun p => p.arrival ≤ s.time)
  let rem := s.remaining.dropWhile (fun p => p.arrival ≤ s.time)
  let rdy := s.ready ++ arrived
  if rdy.isEmpty then
    match rem with
    | [] => { s with remaining := rem, ready := rdy }
    | q :: _ =>
        { s with
          remaining := rem, ready := rdy,
          time := q.arrival,
          timeline := s.timeline ++ unitsFor s.time (q.arrival - s.time) "IDLE" }
  else
    match sortStable byBurst rdy with
    | [] => { s with remaining := rem, ready := rdy }
    | p :: rest =>
        let start := s.time
        let finish := start + p.burst
        { remaining := rem, ready := rest, time := finish,
          gantt := s.gantt ++ [⟨p.pid, start, finish⟩],
          results := s.results ++
            [⟨p.pid, p.arrival, p.burst, finish, (finish : Int) - p.arrival,
              (finish : Int) - p.arrival - p.burst⟩],
          timeline := s.timeline ++ unitsFor start p.burst p.pid }

/-- The fueled `while remaining or ready` loop. -/
def sjfLoop : Nat → SjfState → SjfState
  | 0, s => s
  | f + 1, s =>
      if s.remaining.isEmpty && s.ready.isEmpty then s
      else sjfLoop f (sjfStep s)

/-- Initial state of the SJF loop for input `l`. -/
def sjfInit (l : List Process) : SjfState :=
  ⟨sortStable byArrivalBurst l, [], 0, [], [], []⟩

/-- `sjf_nonpreemptive_scheduler` (source lines 96–134).  The fuel
`2 * l.length + 1` is sufficient for every input (each iteration either
pops a process or is an idle iteration immediately followed by a pop);
sufficiency is proved in `sjfLoop_done`. -/
def sjf_nonpreemptive_scheduler (l : List Process) :
    List Segment × List ResultRow × List TimelineEntry :=
  if l.isEmpty then ([], [], [])
  else
    let s := sjfLoop (2 * l.length + 1) (sjfInit l)
    (s.gantt, s.results, s.timeline)

/-- State of the `srtf_scheduler` while-loop.  `rem` embeds the Python
dict `remaining_burst` (process ids are unique on valid input, so a map
from pid is faithful); `completed` embeds the dict `completed`
(insertion-ordered key/value pairs). -/
structure SrtfState where
  rem : String → Int
  completed : List (String × Nat)
  timeline : List TimelineEntry
  time : Nat

/-- `available = [p for p in procs if arrival_map[p.pid] <= time and
p.pid not in completed]` (source line 152). -/
def srtfAvailable (procs : List Process) (s : SrtfState) : List Process :=
  procs.filter (fun p => decide (p.arrival ≤ s.time) &&
    !(s.completed.any (fun c => c.1 = p.pid)))

/-- One iteration of the `while len(completed) < n` loop of
`srtf_scheduler` (source lines 150–166): if no process is available
record an idle unit, otherwise stably sort the available list by
remaining burst, run its head for one unit and record its completion
when its remaining burst hits zero. -/
def srtfStep (procs : List Process) (s : SrtfState) : SrtfState :=
  let avail := srtfAvailable procs s
  match (sortStable (fun p q => s.rem p.pid ≤ s.rem q.pid) avail).head? with
  | none =>
      { s with timeline := s.timeline ++ [⟨s.time, "IDLE"⟩], time := s.time + 1 }
  | some cur =>
      let rem' := fun k => if k = cur.pid then s.rem k - 1 else s.rem k
      { rem := rem',
        completed :=
          if rem' cur.pid = 0 then s.completed ++ [(cur.pid, s.time + 1)] else s.completed,
        timeline := s.timeline ++ [⟨s.time, cur.pid⟩],
        time := s.time + 1 }

/-- The fueled `while len(completed) < n` loop. -/
def srtfLoop (procs : List Process) (n : Nat) : Nat → SrtfState → SrtfState
  | 0, s => s
  | f + 1, s =>
      if s.completed.length < n then srtfLoop procs n f (srtfStep procs s)
      else s

/-- `remaining_burst = {p.pid: p.burst for p in procs}` (later keys
override earlier ones, as in a Python dict comprehension); every other
key is irrelevant and mapped to 0. -/
def srtfInitRem (procs : List Process) : String → Int :=
  procs.foldl (fun f p => fun k => if k = p.pid then (p.burst : Int) else f k)
    (fun _ => 0)

/-- Initial state of the SRTF loop. -/
def srtfInit (procs : List Process) : SrtfState :=
  ⟨srtfInitRem procs, [], [], 0⟩

/-- The merging for-loop over `timeline[1:]` (source lines 172–179),
carrying the accumulated segments, the current run's pid and its start. -/
def mergeLoop (curPid : String) (segStart : Nat) (segs : List Segment) :
    List TimelineEntry → List Segment × String × Nat
  | [] => (segs, curPid, segStart)
  | e :: rest =>
      if e.running ≠ curPid then
        mergeLoop e.running e.time
          (if curPid ≠ "IDLE" then segs ++ [⟨curPid, segStart, e.time⟩] else segs) rest
      else mergeLoop curPid segStart segs rest

/-- Building Gantt segments from the timeline by merging contiguous
same-pid intervals and dropping idle runs (source lines 168–183). -/
def mergeTimeline (tl : List TimelineEntry) : List Segment :=
  match tl with
  | [] => []
  | e0 :: rest =>
      let r := mergeLoop e0.running e0.time [] rest
      let segEnd := ((e0 :: rest).getLast (List.cons_ne_nil e0 rest)).time + 1
      if r.2.1 ≠ "IDLE" then r.1 ++ [⟨r.2.1, r.2.2, segEnd⟩] else r.1

/-- Completion-time lookup in the embedded `completed` dict. -/
def lookupCT (completed : List (String × Nat)) (pid : String) : Option Nat :=
  (completed.find? (fun c => c.1 = pid)).map (·.2)

/-- One row of the SRTF results table (source lines 187–191). -/
def srtfRow (p : Process) (ct : Nat) : ResultRow :=
  ⟨p.pid, p.arrival, p.burst, ct, (ct : Int) - p.arrival,
    (ct : Int) - p.arrival - p.burst⟩

/-- Fuel sufficient for the SRTF loop on every input on which the Python
loop terminates: the largest arrival plus the total burst plus one. -/
def srtfFuel (procs : List Process) : Nat :=
  (procs.map (·.arrival)).foldr max 0 + (procs.map (·.burst)).sum + 1

/-- `srtf_scheduler` (source lines 136–193).  Returns `none` exactly when
the Python loop would run forever (it cannot complete all `n` dict
entries, e.g. for duplicated pids or a non-positive burst); on every
valid input the result is `some` (proved in `srtf_total`). -/
def srtf_scheduler (l : List Process) :
    Option (List Segment × List ResultRow × List TimelineEntry) :=
  if l.isEmpty then some ([], [], [])
  else
    let procs := sortStable byArrival l
    let n := procs.length
    let s := srtfLoop procs n (srtfFuel procs) (srtfInit procs)
    if s.completed.length < n then none
    else
      (procs.mapM (fun p => (lookupCT s.completed p.pid).map (srtfRow p))).map
        (fun results => (mergeTimeline s.timeline, results, s.timeline))

/-- `results_table_with_metrics` (source lines 279–294): on a non-empty
results table, the mean of the `TAT` and `WT` columns (exact rational
arithmetic embeds the float mean); on an empty table `(df, 0.0, 0.0)`
without any division. -/
def results_table_with_metrics (rows : List ResultRow) : List ResultRow × ℚ × ℚ :=
  if rows.isEmpty then (rows, 0, 0)
  else
    (sortStable (fun a b => a.pid ≤ b.pid) rows,
      ((rows.map (fun r => (r.TAT : ℚ))).sum) / (rows.length : ℚ),
      ((rows.map (fun r => (r.WT : ℚ))).sum) / (rows.length : ℚ))

/-- A valid process list per the spec's data model: unique non-sentinel
ids and positive bursts (arrivals are non-negative by the `Nat` type). -/
def ValidProcs (l : List Process) : Prop :=
  (l.map (·.pid)).Nodup ∧ (∀ p ∈ l, 0 < p.burst) ∧ (∀ p ∈ l, p.pid ≠ "IDLE")

/-- The concrete demo scenario P1(0,5), P2(1,3), P3(2,8), P4(3,6). -/
def demoProcs : List Process :=
  [⟨"P1", 0, 5, 0⟩, ⟨"P2", 1, 3, 0⟩, ⟨"P3", 2, 8, 0⟩, ⟨"P4", 3, 6, 0⟩]

def inputRank (l : List Process) (pid : String) : Nat :=
  l.findIdx (fun p => p.pid = pid)

/-- Arrival order with ties broken by original input position in `l`
(the run order FCFS and the SRTF availability list realize). -/
def ArLex (l : List Process) (p q : Process) : Prop :=
  p.arrival < q.arrival ∨ (p.arrival = q.arrival ∧ inputRank l p.pid < inputRank l q.pid)

/-- (arrival, burst) order with remaining ties broken by input position
(the order of the SJF `remaining` queue). -/
def ArBurstLex (l : List Process) (p q : Process) : Prop :=
  p.arrival < q.arrival ∨
    (p.arrival = q.arrival ∧
      (p.burst < q.burst ∨ (p.burst = q.burst ∧ inputRank l p.pid < inputRank l q.pid)))

/-- The spec's description of an FCFS run (§4.2): starting from cursor
`t`, each process in order gets one segment starting at
`max t arrivalTime` of length `burstTime`, and the cursor advances to
the segment end.  (Claim-side definition, written from the spec's words,
for comparison with `fcfsLoop`.) -/
def SegsChain (t : Nat) : List Process → List Segment → Prop
  | [], segs => segs = []
  | p :: ps, segs =>
      ∃ s rest, segs = s :: rest ∧ s.pid = p.pid ∧ s.start = max t p.arrival ∧
        s.finish = s.start + p.burst ∧ SegsChain s.finish ps rest

/-- The clock value at the end of an FCFS run started at `t`. -/
def fcfsEnd : List Process → Nat → Nat
  | [], t => t
  | p :: ps, t => fcfsEnd ps (max t p.arrival + p.burst)

/-- Loop invariant of the SJF scheduler, relative to the original input
list `l`. -/
structure SjfInv (l : List Process) (s : SjfState) : Prop where
  rem_pairwise : s.remaining.Pairwise (ArBurstLex l)
  ready_pairwise : s.ready.Pairwise (fun p q => p.burst = q.burst → ArLex l p q)
  ready_before_rem : ∀ p ∈ s.ready, ∀ q ∈ s.remaining, p.arrival < q.arrival
  ready_arrived : ∀ p ∈ s.ready, p.arrival ≤ s.time
  timeline_times : s.timeline.map (·.time) = List.range' 0 s.time
  rows_wf : ∀ row ∈ s.results, ∃ p ∈ l, row.pid = p.pid ∧ row.AT = p.arrival ∧
    row.BT = p.burst ∧ p.arrival + p.burst ≤ row.CT ∧
    row.TAT = (row.CT : Int) - p.arrival ∧ row.WT = (row.CT : Int) - p.arrival - p.burst
  rows_ct_le : ∀ row ∈ s.results, row.CT ≤ s.time
  ready_mem : ∀ p ∈ s.ready, p ∈ l
  rem_mem : ∀ p ∈ s.remaining, p ∈ l
  pid_perm : List.Perm
    (s.results.map (·.pid) ++ s.ready.map (·.pid) ++ s.remaining.map (·.pid))
    (l.map (·.pid))
  done_time : s.remaining = [] → s.ready = [] →
    (s.results.map (·.CT)).foldr max 0 = s.time

/-- The arrived prefix moved by the inner `while` of the SJF loop. -/
def sjfArrived (s : SjfState) : List Process :=
  s.remaining.takeWhile (fun p => p.arrival ≤ s.time)

/-- What is left of `remaining` after the move. -/
def sjfRem (s : SjfState) : List Process :=
  s.remaining.dropWhile (fun p => p.arrival ≤ s.time)

/-- The ready list at the decision point, after the move. -/
def sjfRdy (s : SjfState) : List Process :=
  s.ready ++ sjfArrived s

/-- `p.pid not in completed` as the code tests it. -/
def srtfDone (s : SrtfState) (pid : String) : Bool :=
  s.completed.any (fun c => c.1 = pid)

/-- Loop invariant of the SRTF scheduler over the arrival-sorted list
`procs`. -/
structure SrtfInv (procs : List Process) (s : SrtfState) : Prop where
  rem_nonneg : ∀ p ∈ procs, 0 ≤ s.rem p.pid
  rem_le : ∀ p ∈ procs, s.rem p.pid ≤ (p.burst : Int)
  completed_rem : ∀ p ∈ procs, srtfDone s p.pid = true → s.rem p.pid = 0
  uncompleted_rem : ∀ p ∈ procs, srtfDone s p.pid = false → 1 ≤ s.rem p.pid
  timeline_times : s.timeline.map (·.time) = List.range' 0 s.time
  timeline_count : ∀ p ∈ procs,
    ((s.timeline.countP (fun e => e.running = p.pid)) : Int) = (p.burst : Int) - s.rem p.pid
  timeline_occupants : ∀ e ∈ s.timeline, e.running = "IDLE" ∨ ∃ p ∈ procs, e.running = p.pid
  completed_keys : ∀ c ∈ s.completed, ∃ p ∈ procs, c.1 = p.pid ∧
    p.arrival + p.burst ≤ c.2 ∧ c.2 ≤ s.time
  completed_nodup : (s.completed.map (·.1)).Nodup
  rem_lower : ∀ p ∈ procs, (p.burst : Int) - max 0 ((s.time : Int) - p.arrival) ≤ s.rem p.pid
  last_completion : s.completed.length = procs.length → procs ≠ [] →
    ∃ c ∈ s.completed, c.2 = s.time

/-- Termination potential of the SRTF loop: total remaining burst of
uncompleted processes plus the time still needed to reach the last
arrival. -/
def srtfPot (procs : List Process) (s : SrtfState) : Nat :=
  ((procs.filter (fun p => !(srtfDone s p.pid))).map (fun p => (s.rem p.pid).toNat)).sum +
    ((procs.map (·.arrival)).foldr max 0 + 1 - s.time)

/-- The final state of the SRTF loop as run by `srtf_scheduler`. -/
def srtfFinal (l : List Process) : SrtfState :=
  srtfLoop (sortStable byArrival l) (sortStable byArrival l).length
    (srtfFuel (sortStable byArrival l)) (srtfInit (sortStable byArrival l))

/-- The final state of the SJF loop as run by `sjf_nonpreemptive_scheduler`. -/
def sjfFinal (l : List Process) : SjfState :=
  sjfLoop (2 * l.length + 1) (sjfInit l)

/-- The per-row invariant of C5: non-negative waiting time, turnaround at
least the burst, and the defining identities of completion, turnaround
and waiting times. -/
def RowOk (row : ResultRow) : Prop :=
  0 ≤ row.WT ∧ (row.BT : Int) ≤ row.TAT ∧ (row.CT : Int) = (row.AT : Int) + row.TAT ∧
  row.WT = row.TAT - (row.BT : Int)

/-- Run-length encoding of an occupant sequence: `runsAux c k xs` are the
runs of `replicate k c ++ xs` assuming the current run of `c` has length
`k` (claim-side definition, from the spec's run-length-encoder wording). -/
def runsAux (c : String) (k : Nat) : List String → List (String × Nat)
  | [] => [(c, k)]
  | x :: xs => if x = c then runsAux c (k + 1) xs else (c, k) :: runsAux x 1 xs

/-- The maximal runs of an occupant sequence. -/
def occruns : List String → List (String × Nat)
  | [] => []
  | x :: xs => runsAux x 1 xs

/-- Segments corresponding to consecutive runs, starting at time `t`. -/
def segsFrom (t : Nat) : List (String × Nat) → List Segment
  | [] => []
  | (c, k) :: rs => ⟨c, t, t + k⟩ :: segsFrom (t + k) rs

/-- The unit-granularity timeline with occupants `occ` starting at `t`. -/
def entriesFrom (t : Nat) : List String → List TimelineEntry
  | [] => []
  | c :: cs => ⟨t, c⟩ :: entriesFrom (t + 1) cs

/-- A spreadsheet cell: absent (NaN), numeric, or textual. -/
inductive Cell where
  | missing : Cell
  | num : ℚ → Cell
  | str : String → Cell
  deriving DecidableEq

/-- A pandas DataFrame: named columns and rows mapping column names to
cells (columns outside `columns` are irrelevant junk). -/
structure DataFrame where
  columns : List String
  rows : List (String → Cell)

/-- `df.fillna(0)` on one cell. -/
def fillCell : Cell → Cell
  | .missing => .num 0
  | c => c

/-- `df.fillna(0)` on one row. -/
def fillRow (r : String → Cell) : String → Cell := fun c => fillCell (r c)

/-- Python `int()` on a float: truncation toward zero. -/
def truncRat (q : ℚ) : Int := q.num.tdiv q.den

/-- Python `int()` on a string: optional surrounding whitespace, an
optional sign and at least one digit. -/
def pyIntOfString (s : String) : Option Int :=
  let t := s.trim
  let (sign, digits) :=
    if t.startsWith "-" then ((-1 : Int), t.drop 1)
    else if t.startsWith "+" then ((1 : Int), t.drop 1)
    else ((1 : Int), t)
  if digits.length > 0 && digits.all (·.isDigit) then
    some (sign * (digits.foldl (fun n c => n * 10 + (c.toNat - 48)) 0 : Nat))
  else none

/-- Python `str()` of a cell (used for the `pid` field; numeric rendering
is a modelling approximation, no claim depends on it). -/
def pyStr : Cell → String
  | .str s => s
  | .num q => toString q
  | .missing => "nan"

/-- Python `int(cell)`: truncating for numbers, parsing for strings,
failing (`ValueError`) for NaN and non-numeric strings. -/
def coerceInt : Cell → Option Int
  | .num q => some (truncRat q)
  | .str s => pyIntOfString s
  | .missing => none

/-- The per-row validation failure, as named in the raised message
(source lines 51–58): the violated rule plus the offending process id. -/
inductive RowError where
  | notNumeric : String → RowError
  | negativeArrival : String → RowError
  | nonPositiveBurst : String → RowError
  deriving DecidableEq, Repr

/-- The errors `parse_df_to_processes` raises: the schema error naming
the missing columns (source line 33) or a validation error naming the
offending process id (source line 58). -/
inductive ParseError where
  | missingColumns : List String → ParseError
  | invalidData : String → RowError → ParseError
  deriving DecidableEq, Repr

/-- Body of the `for _, r in df2.iterrows()` loop (source lines 43–58):
coerce pid/arrival/burst/priority, then validate sign constraints. -/
def rowToProcess (hasPriority : Bool) (r : String → Cell) :
    Except (String × RowError) Process :=
  let pid := pyStr (r "pid")
  match coerceInt (r "arrival") with
  | none => .error (pid, .notNumeric "arrival")
  | some arrival =>
    match coerceInt (r "burst") with
    | none => .error (pid, .notNumeric "burst")
    | some burst =>
      match (if hasPriority then coerceInt (r "priority") else some 0) with
      | none => .error (pid, .notNumeric "priority")
      | some priority =>
        if arrival < 0 then .error (pid, .negativeArrival pid)
        else if burst ≤ 0 then .error (pid, .nonPositiveBurst pid)
        else .ok ⟨pid, arrival.toNat, burst.toNat, priority⟩

/-- `df.empty`: no rows or no columns. -/
def dfEmpty (df : DataFrame) : Bool := df.rows.isEmpty || df.columns.isEmpty

/-- `[col for col in ['arrival','burst'] if col not in df2.columns]`. -/
def missingColumnsOf (cols : List String) : List String :=
  (["arrival", "burst"]).filter (fun c => !(cols.contains c))

/-- `df2.insert(0, 'pid', ['P{i+1}' ...])` when no pid column exists. -/
def insertPid (rows : List (String → Cell)) : List (String → Cell) :=
  rows.enum.map (fun ir => fun c => if c = "pid" then Cell.str ("P" ++ toString (ir.1 + 1))
    else ir.2 c)

/-- `parse_df_to_processes` (source lines 21–60). -/
def parse_df_to_processes (df : DataFrame) : Except ParseError (List Process) :=
  if dfEmpty df then .ok []
  else
    let rows1 := df.rows.map fillRow
    let missing := missingColumnsOf df.columns
    if !missing.isEmpty then .error (.missingColumns missing)
    else
      let rows2 := if df.columns.contains "pid" then rows1 else insertPid rows1
      let hasPriority := df.columns.contains "priority"
      (rows2.mapM (rowToProcess hasPriority)).mapError
        (fun e => ParseError.invalidData e.1 e.2)

/-- The rows the validation loop actually sees. -/
def parsedRows (df : DataFrame) : List (String → Cell) :=
  if df.columns.contains "pid" then df.rows.map fillRow
  else insertPid (df.rows.map fillRow)

/-- `df.fillna(0)` on a whole DataFrame. -/
def fillDF (df : DataFrame) : DataFrame := ⟨df.columns, df.rows.map fillRow⟩

/-- A concrete row whose arrival cell is NaN. -/
def rowMissingArrival : String → Cell :=
  fun c => if c = "pid" then Cell.str "PY"
    else if c = "arrival" then Cell.missing else Cell.num 3

/-- A concrete row whose burst cell is NaN. -/
def rowMissingBurst : String → Cell :=
  fun c => if c = "pid" then Cell.str "PX" else Cell.missing

/-- A concrete row whose arrival coerces to a negative integer. -/
def rowNegArrival : String → Cell :=
  fun c => if c = "pid" then Cell.str "P9"
    else if c = "arrival" then Cell.num (-1) else Cell.num 3

/-- A concrete table containing `rowNegArrival`. -/
def dfBad : DataFrame := ⟨["pid", "arrival", "burst"], [rowNegArrival]⟩

/-- The SRTF loop state after `k` iterations on the demo scenario. -/
def srtfDemoState (k : Nat) : SrtfState :=
  srtfLoop (sortStable byArrival demoProcs) (sortStable byArrival demoProcs).length k
    (srtfInit (sortStable byArrival demoProcs))

/-- The SJF loop state after `k` iterations on the demo scenario. -/
def sjfDemoState (k : Nat) : SjfState := sjfLoop k (sjfInit demoProcs)

/-- A concrete timeline with two runs and an idle unit. -/
def demoTimeline : List TimelineEntry := [⟨0, "A"⟩, ⟨1, "A"⟩, ⟨2, "IDLE"⟩, ⟨3, "B"⟩]

/-- C1: on the input list P1(arrival 0, burst 5), P2(1, 3), P3(2, 8),
P4(3, 6) given in that order, `fcfs_scheduler` yields completion times
P1=5, P2=8, P3=16, P4=22 with average turnaround 11.25 and average
waiting 5.75; `sjf_nonpreemptive_scheduler` yields completions P1=5,
P2=8, P4=14, P3=22 with averages 10.75 and 5.25; and `srtf_scheduler`
yields completions P2=4, P1=8, P4=14, P3=22 with averages 10.5 and 5.0
(SRTF rows are listed in the arrival-sorted order the code emits them). -/
theorem demo_scenario_results :
    ((fcfs_scheduler demoProcs).2.1.map (fun r => (r.pid, r.CT)) =
      [("P1", 5), ("P2", 8), ("P3", 16), ("P4", 22)]) ∧
    (results_table_with_metrics (fcfs_scheduler demoProcs).2.1).2 = (45/4, 23/4) ∧
    ((sjf_nonpreemptive_scheduler demoProcs).2.1.map (fun r => (r.pid, r.CT)) =
      [("P1", 5), ("P2", 8), ("P4", 14), ("P3", 22)]) ∧
    (results_table_with_metrics (sjf_nonpreemptive_scheduler demoProcs).2.1).2 =
      (43/4, 21/4) ∧
    ((srtf_scheduler demoProcs).map (fun v => v.2.1.map (fun r => (r.pid, r.CT))) =
      some [("P1", 8), ("P2", 4), ("P3", 22), ("P4", 14)]) ∧
    ((srtf_scheduler demoProcs).map (fun v => (results_table_with_metrics v.2.1).2) =
      some (21/2, 5)) := by
  have hf : (fcfs_scheduler demoProcs).2.1 =
      [⟨"P1", 0, 5, 5, 5, 0⟩, ⟨"P2", 1, 3, 8, 7, 4⟩, ⟨"P3", 2, 8, 16, 14, 6⟩,
       ⟨"P4", 3, 6, 22, 19, 13⟩] := by decide
  have hs : (sjf_nonpreemptive_scheduler demoProcs).2.1 =
      [⟨"P1", 0, 5, 5, 5, 0⟩, ⟨"P2", 1, 3, 8, 7, 4⟩, ⟨"P4", 3, 6, 14, 11, 5⟩,
       ⟨"P3", 2, 8, 22, 20, 12⟩] := by decide
  have hr : (srtf_scheduler demoProcs).map (fun v => v.2.1) =
      some [⟨"P1", 0, 5, 8, 8, 3⟩, ⟨"P2", 1, 3, 4, 3, 0⟩, ⟨"P3", 2, 8, 22, 20, 12⟩,
       ⟨"P4", 3, 6, 14, 11, 5⟩] := by decide
  obtain ⟨v, hv, hv2⟩ : ∃ v, srtf_scheduler demoProcs = some v ∧
      v.2.1 = [⟨"P1", 0, 5, 8, 8, 3⟩, ⟨"P2", 1, 3, 4, 3, 0⟩, ⟨"P3", 2, 8, 22, 20, 12⟩,
        ⟨"P4", 3, 6, 14, 11, 5⟩] := by
    cases h : srtf_scheduler demoProcs with
    | none => rw [h] at hr; exact absurd hr (by simp)
    | some v => rw [h] at hr; exact ⟨v, rfl, by simpa using hr⟩
  refine ⟨by rw [hf]; decide, ?_, by rw [hs]; decide, ?_, ?_, ?_⟩
  · rw [hf]
    simp only [results_table_with_metrics, List.isEmpty_cons, List.map, List.sum_cons,
      List.sum_nil, List.length_cons, List.length_nil]
    norm_num
  · rw [hs]
    simp only [results_table_with_metrics, List.isEmpty_cons, List.map, List.sum_cons,
      List.sum_nil, List.length_cons, List.length_nil]
    norm_num
  · rw [hv]
    simp only [Option.map_some']
    rw [hv2]
    decide
  · rw [hv]
    simp only [Option.map_some']
    rw [hv2]
    simp only [results_table_with_metrics, List.isEmpty_cons, List.map, List.sum_cons,
      List.sum_nil, List.length_cons, List.length_nil]
    norm_num

theorem insertLe_perm (le : α → α → Bool) (x : α) (l : List α) :
    List.Perm (insertLe le x l) (x :: l) := by
  induction l with
  | nil => simp [insertLe]
  | cons y ys ih =>
      by_cases h : le x y
      · simp [insertLe, h]
      · simp only [insertLe, h, if_false]
        exact ((ih.cons y).trans (List.Perm.swap x y ys))

theorem sortStable_perm (le : α → α → Bool) (l : List α) :
    List.Perm (sortStable le l) l := by
  induction l with
  | nil => simp [sortStable]
  | cons x xs ih => exact (insertLe_perm le x (sortStable le xs)).trans (ih.cons x)

theorem mem_sortStable {le : α → α → Bool} {l : List α} {a : α} :
    a ∈ sortStable le l ↔ a ∈ l :=
  (sortStable_perm le l).mem_iff

theorem insertLe_pairwise {le : α → α → Bool} {R : α → α → Prop}
    (htr : ∀ a b c, le a b = true → le b c = true → le a c = true)
    (hto : ∀ a b, le a b = true ∨ le b a = true)
    {x : α} {L : List α}
    (hL : L.Pairwise (fun a b => le a b = true ∧ (le b a = true → R a b)))
    (hx : ∀ y ∈ L, R x y) :
    (insertLe le x L).Pairwise (fun a b => le a b = true ∧ (le b a = true → R a b)) := by
  induction L with
  | nil => simp [insertLe]
  | cons y ys ih =>
      obtain ⟨hLy, hLt⟩ := List.pairwise_cons.mp hL
      by_cases h : le x y
      · simp only [insertLe, h, if_true]
        refine List.Pairwise.cons ?_ hL
        intro z hz
        rcases List.mem_cons.mp hz with rfl | hz
        · exact ⟨h, fun _ => hx _ (by simp)⟩
        · exact ⟨htr _ _ _ h (hLy z hz).1, fun _ => hx z (by simp [hz])⟩
      · simp only [insertLe, h, if_false]
        have hyx : le y x = true := (hto x y).resolve_left (by simpa using h)
        refine List.Pairwise.cons ?_ (ih hLt (fun z hz => hx z (by simp [hz])))
        intro z hz
        rcases List.mem_cons.mp ((insertLe_perm le x ys).mem_iff.mp hz) with rfl | hz'
        · exact ⟨hyx, fun h' => absurd h' (by simpa using h)⟩
        · exact hLy z hz'

theorem sortStable_pairwise {le : α → α → Bool} {R : α → α → Prop}
    (htr : ∀ a b c, le a b = true → le b c = true → le a c = true)
    (hto : ∀ a b, le a b = true ∨ le b a = true)
    {l : List α} (hl : l.Pairwise R) :
    (sortStable le l).Pairwise (fun a b => le a b = true ∧ (le b a = true → R a b)) := by
  induction l with
  | nil => simp [sortStable]
  | cons x xs ih =>
      obtain ⟨hly, hlt⟩ := List.pairwise_cons.mp hl
      exact insertLe_pairwise htr hto (ih hlt)
        (fun y hy => hly y (mem_sortStable.mp hy))

theorem sortStable_head_min {le : α → α → Bool} {R : α → α → Prop}
    (htr : ∀ a b c, le a b = true → le b c = true → le a c = true)
    (hto : ∀ a b, le a b = true ∨ le b a = true)
    {l : List α} (hl : l.Pairwise R) {x : α}
    (hx : (sortStable le l).head? = some x) :
    x ∈ l ∧ ∀ y ∈ l, y ≠ x → le x y = true ∧ (le y x = true → R x y) := by
  have hp := sortStable_pairwise htr hto hl
  cases hs : sortStable le l with
  | nil => rw [hs] at hx; cases hx
  | cons h0 t =>
      rw [hs] at hx hp
      obtain ⟨hp1, _⟩ := List.pairwise_cons.mp hp
      obtain rfl : h0 = x := by simpa using hx
      refine ⟨mem_sortStable.mp (by rw [hs]; exact List.mem_cons_self _ _), ?_⟩
      intro y hy hne
      have hmem : y ∈ h0 :: t := by rw [← hs]; exact mem_sortStable.mpr hy
      rcases List.mem_cons.mp hmem with hz | hyt
      · exact absurd hz hne
      · exact hp1 y hyt

theorem inputRank_get {l : List Process} (h : (l.map (·.pid)).Nodup)
    (i : Fin l.length) : inputRank l (l.get i).pid = i := by
  induction l with
  | nil => exact absurd i.2 (by simp)
  | cons x xs ih =>
      rcases i with ⟨i, hi⟩
      cases i with
      | zero => simp [inputRank, List.findIdx_cons]
      | succ j =>
          have hj : j < xs.length := by simpa using hi
          have hne : x.pid ≠ (xs.get ⟨j, hj⟩).pid := by
            intro he
            have : x.pid ∈ xs.map (·.pid) := by
              rw [he]; exact List.mem_map_of_mem _ (xs.get_mem _ _)
            exact (List.nodup_cons.mp h).1 this
          have hih := ih (List.nodup_cons.mp h).2 ⟨j, hj⟩
          simp only [inputRank, List.get_cons_succ, List.findIdx_cons] at hih ⊢
          rw [cond_eq_if, if_neg (by simpa using hne)]
          omega

theorem pairwise_inputRank {l : List Process} (h : (l.map (·.pid)).Nodup) :
    l.Pairwise (fun p q => inputRank l p.pid < inputRank l q.pid) := by
  rw [List.pairwise_iff_get]
  intro i j hij
  rw [inputRank_get h i, inputRank_get h j]
  exact hij

theorem byArrival_trans : ∀ a b c : Process,
    byArrival a b = true → byArrival b c = true → byArrival a c = true := by
  intro a b c h1 h2
  simp only [byArrival, decide_eq_true_eq] at *
  omega

theorem byArrival_total : ∀ a b : Process,
    byArrival a b = true ∨ byArrival b a = true := by
  intro a b
  simp only [byArrival, decide_eq_true_eq]
  omega

theorem byArrivalBurst_trans : ∀ a b c : Process,
    byArrivalBurst a b = true → byArrivalBurst b c = true → byArrivalBurst a c = true := by
  intro a b c h1 h2
  simp only [byArrivalBurst, Bool.or_eq_true, Bool.and_eq_true, decide_eq_true_eq] at *
  omega

theorem byArrivalBurst_total : ∀ a b : Process,
    byArrivalBurst a b = true ∨ byArrivalBurst b a = true := by
  intro a b
  simp only [byArrivalBurst, Bool.or_eq_true, Bool.and_eq_true, decide_eq_true_eq]
  omega

theorem byBurst_trans : ∀ a b c : Process,
    byBurst a b = true → byBurst b c = true → byBurst a c = true := by
  intro a b c h1 h2
  simp only [byBurst, decide_eq_true_eq] at *
  omega

theorem byBurst_total : ∀ a b : Process, byBurst a b = true ∨ byBurst b a = true := by
  intro a b
  simp only [byBurst, decide_eq_true_eq]
  omega

/-- The arrival-sorted list used by FCFS and SRTF is ordered by arrival
with ties in original input order. -/
theorem sorted_byArrival_pairwise {l : List Process} (h : (l.map (·.pid)).Nodup) :
    (sortStable byArrival l).Pairwise (ArLex l) := by
  refine (sortStable_pairwise byArrival_trans byArrival_total (pairwise_inputRank h)).imp ?_
  intro a b hab
  obtain ⟨h1, h2⟩ := hab
  simp only [byArrival, decide_eq_true_eq] at h1 h2
  rcases Nat.lt_or_ge a.arrival b.arrival with hlt | hge
  · exact Or.inl hlt
  · exact Or.inr ⟨Nat.le_antisymm h1 hge, h2 hge⟩

/-- The (arrival, burst)-sorted list used by SJF is ordered by (arrival,
burst) with remaining ties in original input order. -/
theorem sorted_byArrivalBurst_pairwise {l : List Process} (h : (l.map (·.pid)).Nodup) :
    (sortStable byArrivalBurst l).Pairwise (ArBurstLex l) := by
  refine (sortStable_pairwise byArrivalBurst_trans byArrivalBurst_total
    (pairwise_inputRank h)).imp ?_
  intro a b hab
  obtain ⟨h1, h2⟩ := hab
  simp only [byArrivalBurst, Bool.or_eq_true, Bool.and_eq_true, decide_eq_true_eq] at h1 h2
  simp only [ArBurstLex]
  rcases h1 with hlt | ⟨he, hb⟩
  · exact Or.inl hlt
  · rcases Nat.lt_or_ge a.burst b.burst with hblt | hbge
    · exact Or.inr ⟨he, Or.inl hblt⟩
    · exact Or.inr ⟨he, Or.inr ⟨Nat.le_antisymm hb hbge, h2 (Or.inr ⟨he.symm, hbge⟩)⟩⟩

theorem fcfsEnd_ge (ps : List Process) (t : Nat) : t ≤ fcfsEnd ps t := by
  induction ps generalizing t with
  | nil => simp [fcfsEnd]
  | cons p ps ih =>
      calc t ≤ max t p.arrival + p.burst := by omega
        _ ≤ fcfsEnd ps (max t p.arrival + p.burst) := ih _
        _ = fcfsEnd (p :: ps) t := rfl

theorem fcfsLoop_chain (ps : List Process) (t : Nat) :
    SegsChain t ps (fcfsLoop ps t).1 ∧
    (fcfsLoop ps t).1.map (·.pid) = ps.map (·.pid) ∧
    (fcfsLoop ps t).2.1.map (·.pid) = (fcfsLoop ps t).1.map (·.pid) ∧
    (fcfsLoop ps t).2.1.map (·.CT) = (fcfsLoop ps t).1.map (·.finish) ∧
    (fcfsLoop ps t).1.length = ps.length := by
  induction ps generalizing t with
  | nil => simp [fcfsLoop, SegsChain]
  | cons p ps ih =>
      obtain ⟨h1, h2, h3, h4, h5⟩ := ih (max t p.arrival + p.burst)
      refine ⟨⟨_, _, rfl, rfl, rfl, rfl, h1⟩, ?_, ?_, ?_, ?_⟩ <;>
        simp [fcfsLoop, h2, h3, h4, h5]

theorem fcfsLoop_rows (ps : List Process) (t : Nat) :
    ∀ row ∈ (fcfsLoop ps t).2.1, ∃ p ∈ ps,
      row.pid = p.pid ∧ row.AT = p.arrival ∧ row.BT = p.burst ∧
      p.arrival + p.burst ≤ row.CT ∧
      row.TAT = (row.CT : Int) - p.arrival ∧
      row.WT = (row.CT : Int) - p.arrival - p.burst := by
  induction ps generalizing t with
  | nil => simp [fcfsLoop]
  | cons p ps ih =>
      intro row hrow
      simp only [fcfsLoop, List.mem_cons] at hrow
      rcases hrow with rfl | hrow
      · exact ⟨p, by simp, rfl, rfl, rfl, by simp, rfl, rfl⟩
      · obtain ⟨q, hq, hrest⟩ := ih _ row hrow
        exact ⟨q, List.mem_cons_of_mem _ hq, hrest⟩

theorem unitsFor_times (start len : Nat) (who : String) :
    (unitsFor start len who).map (·.time) = List.range' start len := by
  simp only [unitsFor, List.map_map, List.range'_eq_map_range]
  rfl

theorem range'_append3 (t m1 m2 m3 k : Nat) (hk : k = m1 + m2 + m3) :
    List.range' t m1 ++ (List.range' (t + m1) m2 ++ List.range' (t + m1 + m2) m3) =
    List.range' t k := by
  subst hk
  rw [List.range'_append_1, List.range'_append_1]
  first
  | rfl
  | (congr 1; omega)

theorem fcfsLoop_timeline (ps : List Process) (t : Nat) :
    (fcfsLoop ps t).2.2.map (·.time) = List.range' t (fcfsEnd ps t - t) := by
  induction ps generalizing t with
  | nil => simp [fcfsLoop, fcfsEnd]
  | cons p ps ih =>
      have hend := fcfsEnd_ge ps (max t p.arrival + p.burst)
      simp only [fcfsLoop, List.map_append, unitsFor_times, ih, fcfsEnd, List.append_assoc]
      rw [show max t p.arrival = t + (max t p.arrival - t) from by omega] at hend ⊢
      rw [show t + (max t p.arrival - t) - t = max t p.arrival - t from by omega]
      apply range'_append3
      omega

theorem sortStable_ne_nil {le : α → α → Bool} {l : List α} (h : l ≠ []) :
    sortStable le l ≠ [] := by
  intro hc
  have := (sortStable_perm le l).length_eq
  rw [hc] at this
  exact h (List.length_eq_zero.mp this.symm)

theorem range'_zero_append (a b : Nat) :
    List.range' 0 a ++ List.range' a b = List.range' 0 (a + b) := by
  have := List.range'_append_1 0 a b
  simpa [Nat.add_comm] using this

theorem foldr_max_last {xs : List Nat} {m : Nat} (h : ∀ x ∈ xs, x ≤ m) :
    (xs ++ [m]).foldr max 0 = m := by
  induction xs with
  | nil => simp
  | cons x xs ih =>
      simp only [List.cons_append, List.foldr_cons]
      rw [ih (fun y hy => h y (by simp [hy]))]
      exact Nat.max_eq_right (h x (by simp))

theorem pid_inj {l : List Process} (h : (l.map (·.pid)).Nodup)
    {p q : Process} (hp : p ∈ l) (hq : q ∈ l) (he : p.pid = q.pid) : p = q := by
  have := List.inj_on_of_nodup_map h
  exact this hp hq he

/-- In an (arrival, burst)-sorted queue, every process left by
`dropWhile (arrival ≤ time)` has arrival strictly after `time`. -/
theorem dropWhile_arrival_gt {l : List Process} {L : List Process} {time : Nat}
    (hp : L.Pairwise (ArBurstLex l)) :
    ∀ q ∈ L.dropWhile (fun p => decide (p.arrival ≤ time)), time < q.arrival := by
  intro q hq
  induction L with
  | nil => simp [List.dropWhile] at hq
  | cons x xs ih =>
      rw [List.dropWhile_cons] at hq
      by_cases hx : x.arrival ≤ time
      · rw [if_pos (by simpa using hx)] at hq
        exact ih (List.pairwise_cons.mp hp).2 hq
      · rw [if_neg (by simpa using hx)] at hq
        rcases List.mem_cons.mp hq with rfl | hq'
        · omega
        · have := (List.pairwise_cons.mp hp).1 q hq'
          rcases this with h1 | ⟨h1, _⟩ <;> omega

/-- In an (arrival, burst)-sorted queue, every arrived process is in the
`takeWhile (arrival ≤ time)` prefix. -/
theorem mem_takeWhile_of_sorted {l : List Process} {L : List Process} {time : Nat}
    (hp : L.Pairwise (ArBurstLex l)) {q : Process} (hq : q ∈ L)
    (ha : q.arrival ≤ time) :
    q ∈ L.takeWhile (fun p => decide (p.arrival ≤ time)) := by
  rcases (List.mem_append.mp (by
      rw [List.takeWhile_append_dropWhile]
      exact hq :
      q ∈ L.takeWhile (fun p => decide (p.arrival ≤ time)) ++
        L.dropWhile (fun p => decide (p.arrival ≤ time)))) with h | h
  · exact h
  · exact absurd (dropWhile_arrival_gt hp q h) (by omega)

theorem sjfInit_inv {l : List Process} (h : (l.map (·.pid)).Nodup) :
    SjfInv l (sjfInit l) := by
  refine ⟨sorted_byArrivalBurst_pairwise h, by simp [sjfInit], by simp [sjfInit], by simp [sjfInit], by simp [sjfInit],
    by simp [sjfInit], by simp [sjfInit], by simp [sjfInit],
    fun p hp => mem_sortStable.mp hp, ?_, ?_⟩
  · simpa [sjfInit] using ((sortStable_perm byArrivalBurst l).map (·.pid))
  · intro h1 _
    have := @sortStable_ne_nil Process byArrivalBurst l
    by_cases hl : l = []
    · simp [sjfInit, hl]
    · exact absurd h1 (this hl)

theorem sjfArrived_append_sjfRem (s : SjfState) :
    sjfArrived s ++ sjfRem s = s.remaining := by
  simp only [sjfArrived, sjfRem]
  exact List.takeWhile_append_dropWhile _ _

theorem sjfStep_stuck (s : SjfState) (h1 : sjfRdy s = []) (h2 : sjfRem s = []) :
    sjfStep s = { s with remaining := [], ready := [] } := by
  have : (sjfRdy s).isEmpty = true := by simp [h1]
  simp only [sjfStep, sjfRdy, sjfArrived, sjfRem] at *
  rw [this]
  simp only [if_true]
  rw [h2]
  simp [h1]

theorem sjfStep_idle (s : SjfState) {q : Process} {rest : List Process}
    (h1 : sjfRdy s = []) (h2 : sjfRem s = q :: rest) :
    sjfStep s =
      { s with
        remaining := (q :: rest)
        ready := []
        time := q.arrival
        timeline := s.timeline ++ unitsFor s.time (q.arrival - s.time) "IDLE" } := by
  have : (sjfRdy s).isEmpty = true := by simp [h1]
  simp only [sjfStep, sjfRdy, sjfArrived, sjfRem] at *
  rw [this]
  simp only [if_true]
  rw [h2]
  simp [h1]

theorem sjfStep_busy (s : SjfState) {cur : Process} {rest2 : List Process}
    (hsort : sortStable byBurst (sjfRdy s) = cur :: rest2) :
    sjfStep s =
      { remaining := sjfRem s
        ready := rest2
        time := s.time + cur.burst
        gantt := s.gantt ++ [⟨cur.pid, s.time, s.time + cur.burst⟩]
        results := s.results ++
          [⟨cur.pid, cur.arrival, cur.burst, s.time + cur.burst,
            ((s.time + cur.burst : Nat) : Int) - cur.arrival,
            ((s.time + cur.burst : Nat) : Int) - cur.arrival - cur.burst⟩]
        timeline := s.timeline ++ unitsFor s.time cur.burst cur.pid } := by
  have hne : sjfRdy s ≠ [] := by
    intro hc
    rw [hc] at hsort
    simp [sortStable] at hsort
  have : (sjfRdy s).isEmpty = false := by
    simpa [List.isEmpty_iff] using hne
  simp only [sjfStep, sjfRdy, sjfArrived, sjfRem] at *
  rw [this]
  simp only [Bool.false_eq_true, if_false]
  rw [hsort]

theorem sjfRdy_pairwise {l : List Process} {s : SjfState} (inv : SjfInv l s) :
    (sjfRdy s).Pairwise (fun p q => p.burst = q.burst → ArLex l p q) := by
  rw [sjfRdy, List.pairwise_append]
  refine ⟨inv.ready_pairwise, ?_, ?_⟩
  · refine ((inv.rem_pairwise.sublist (List.takeWhile_sublist _)).imp ?_)
    intro a b hab he
    rcases hab with h1 | ⟨h1, h2 | ⟨h2, h3⟩⟩
    · exact Or.inl h1
    · omega
    · exact Or.inr ⟨h1, h3⟩
  · intro p hp q hq _
    exact Or.inl (inv.ready_before_rem p hp q
      (List.Sublist.mem hq (List.takeWhile_sublist _)))

theorem sjfRdy_arrived {l : List Process} {s : SjfState} (inv : SjfInv l s) :
    ∀ p ∈ sjfRdy s, p.arrival ≤ s.time := by
  intro p hp
  rcases List.mem_append.mp hp with h | h
  · exact inv.ready_arrived p h
  · have := List.mem_takeWhile_imp h
    simpa using this

theorem sjfRdy_mem {l : List Process} {s : SjfState} (inv : SjfInv l s) :
    ∀ p ∈ sjfRdy s, p ∈ l := by
  intro p hp
  rcases List.mem_append.mp hp with h | h
  · exact inv.ready_mem p h
  · exact inv.rem_mem p (List.Sublist.mem h (List.takeWhile_sublist _))

theorem sjfRdy_before_rem {l : List Process} {s : SjfState} (inv : SjfInv l s) :
    ∀ p ∈ sjfRdy s, ∀ q ∈ sjfRem s, p.arrival < q.arrival := by
  intro p hp q hq
  rcases List.mem_append.mp hp with h | h
  · exact inv.ready_before_rem p h q (List.Sublist.mem hq (List.dropWhile_sublist _))
  · have h1 := sjfRdy_arrived inv p hp
    have h2 := dropWhile_arrival_gt inv.rem_pairwise q hq
    omega

theorem sjfStep_inv {l : List Process} {s : SjfState} (inv : SjfInv l s) :
    SjfInv l (sjfStep s) := by
  cases hre : sortStable byBurst (sjfRdy s) with
  | nil =>
      have hrdy : sjfRdy s = [] := by
        by_contra hc
        exact sortStable_ne_nil hc hre
      have hready : s.ready = [] := (List.append_eq_nil.mp hrdy).1
      have harr : sjfArrived s = [] := (List.append_eq_nil.mp hrdy).2
      cases hrem : sjfRem s with
      | nil =>
          have hremain : s.remaining = [] := by
            have h := sjfArrived_append_sjfRem s
            rw [harr, hrem] at h
            exact h.symm
          rw [sjfStep_stuck s hrdy hrem]
          exact ⟨by simp, by simp, by simp, by simp, inv.timeline_times, inv.rows_wf,
            inv.rows_ct_le, by simp, by simp,
            by simpa [hready, hremain] using inv.pid_perm,
            fun _ _ => inv.done_time hremain hready⟩
      | cons q rest =>
          have hremain : s.remaining = q :: rest := by
            have h := sjfArrived_append_sjfRem s
            rw [harr, hrem] at h
            exact h.symm
          have htq : s.time < q.arrival := by
            refine dropWhile_arrival_gt inv.rem_pairwise q ?_
            rw [show s.remaining.dropWhile (fun p => decide (p.arrival ≤ s.time)) =
              sjfRem s from rfl, hrem]
            exact List.mem_cons_self _ _
          rw [sjfStep_idle s hrdy hrem]
          refine ⟨?_, by simp, by simp, by simp, ?_, inv.rows_wf, ?_, by simp, ?_, ?_, ?_⟩
          · rw [← hremain]
            exact inv.rem_pairwise
          · simp only [List.map_append, unitsFor_times, inv.timeline_times,
              range'_zero_append]
            congr 1
            omega
          · intro row hrow
            have := inv.rows_ct_le row hrow
            show row.CT ≤ q.arrival
            omega
          · intro p hp
            rw [← hremain] at hp
            exact inv.rem_mem p hp
          · simp only [hready, ← hremain]
            simpa [hready] using inv.pid_perm
          · intro h
            cases h
  | cons cur rest2 =>
      have hcur_mem_rdy : cur ∈ sjfRdy s := mem_sortStable.mp (by rw [hre]; simp)
      have hrest2_sub : ∀ p ∈ rest2, p ∈ sjfRdy s := fun p hp =>
        mem_sortStable.mp (by rw [hre]; simp [hp])
      have hcur_arr : cur.arrival ≤ s.time := sjfRdy_arrived inv cur hcur_mem_rdy
      have hcur_l : cur ∈ l := sjfRdy_mem inv cur hcur_mem_rdy
      have hsorted := sortStable_pairwise byBurst_trans byBurst_total (sjfRdy_pairwise inv)
      rw [hre] at hsorted
      rw [sjfStep_busy s hre]
      refine ⟨?_, ?_, ?_, ?_, ?_, ?_, ?_, ?_, ?_, ?_, ?_⟩
      · exact inv.rem_pairwise.sublist (List.dropWhile_sublist _)
      · refine ((List.pairwise_cons.mp hsorted).2.imp ?_)
        intro a b hab he
        exact hab.2 (by simp only [byBurst, decide_eq_true_eq]; omega) he
      · intro p hp q hq
        exact sjfRdy_before_rem inv p (hrest2_sub p hp) q hq
      · intro p hp
        have := sjfRdy_arrived inv p (hrest2_sub p hp)
        show p.arrival ≤ s.time + cur.burst
        omega
      · simp only [List.map_append, unitsFor_times, inv.timeline_times,
          range'_zero_append]
      · intro row hrow
        simp only [List.mem_append, List.mem_singleton] at hrow
        rcases hrow with hrow | rfl
        · exact inv.rows_wf row hrow
        · refine ⟨cur, hcur_l, rfl, rfl, rfl, ?_, rfl, rfl⟩
          show cur.arrival + cur.burst ≤ s.time + cur.burst
          omega
      · intro row hrow
        simp only [List.mem_append, List.mem_singleton] at hrow
        rcases hrow with hrow | rfl
        · have := inv.rows_ct_le row hrow
          show row.CT ≤ s.time + cur.burst
          omega
        · show s.time + cur.burst ≤ s.time + cur.burst
          omega
      · intro p hp
        exact sjfRdy_mem inv p (hrest2_sub p hp)
      · intro p hp
        exact inv.rem_mem p (List.Sublist.mem hp (List.dropWhile_sublist _))
      · have h1 : List.Perm ((cur :: rest2).map (·.pid)) ((sjfRdy s).map (·.pid)) := by
          rw [← hre]
          exact (sortStable_perm byBurst (sjfRdy s)).map _
        have h2 : (sjfArrived s).map (·.pid) ++ (sjfRem s).map (·.pid) =
            s.remaining.map (·.pid) := by
          rw [← List.map_append, sjfArrived_append_sjfRem s]
        have e1 : ((s.results ++ [(⟨cur.pid, cur.arrival, cur.burst, s.time + cur.burst,
                ((s.time + cur.burst : Nat) : Int) - cur.arrival,
                ((s.time + cur.burst : Nat) : Int) - cur.arrival - cur.burst⟩ : ResultRow)]).map (·.pid))
              ++ rest2.map (·.pid) ++ (sjfRem s).map (·.pid)
            = s.results.map (·.pid) ++
              ((cur :: rest2).map (·.pid) ++ (sjfRem s).map (·.pid)) := by
          simp only [List.map_append, List.map_cons, List.map_nil, List.append_assoc,
            List.singleton_append, List.nil_append]
        have p2 : List.Perm
            (s.results.map (·.pid) ++ ((cur :: rest2).map (·.pid) ++ (sjfRem s).map (·.pid)))
            (s.results.map (·.pid) ++ ((sjfRdy s).map (·.pid) ++ (sjfRem s).map (·.pid))) :=
          List.Perm.append_left _ (List.Perm.append_right _ h1)
        have e3 : s.results.map (·.pid) ++ ((sjfRdy s).map (·.pid) ++ (sjfRem s).map (·.pid))
            = s.results.map (·.pid) ++ s.ready.map (·.pid) ++ s.remaining.map (·.pid) := by
          rw [← h2]
          simp only [sjfRdy, List.map_append, List.append_assoc]
        show List.Perm _ (l.map (·.pid))
        rw [e1]
        exact p2.trans (e3 ▸ inv.pid_perm)
      · intro h1 h2
        simp only [List.map_append]
        have : ∀ x ∈ s.results.map (·.CT), x ≤ s.time + cur.burst := by
          intro x hx
          obtain ⟨row, hrow, rfl⟩ := List.mem_map.mp hx
          have := inv.rows_ct_le row hrow
          omega
        simpa using foldr_max_last this

theorem sjfLoop_inv {l : List Process} (f : Nat) {s : SjfState} (inv : SjfInv l s) :
    SjfInv l (sjfLoop f s) := by
  induction f generalizing s with
  | zero => exact inv
  | succ f ih =>
      rw [sjfLoop]
      by_cases h : s.remaining.isEmpty && s.ready.isEmpty
      · rw [if_pos h]
        exact inv
      · rw [if_neg h]
        exact ih (sjfStep_inv inv)

theorem sjfLoop_of_done {s : SjfState} (f : Nat) (h1 : s.remaining = [])
    (h2 : s.ready = []) : sjfLoop f s = s := by
  cases f with
  | zero => rfl
  | succ f =>
      rw [sjfLoop, if_pos]
      simp [h1, h2]

theorem sjfStep_total_busy {s : SjfState} {cur : Process} {rest2 : List Process}
    (hre : sortStable byBurst (sjfRdy s) = cur :: rest2) :
    (sjfStep s).remaining.length + (sjfStep s).ready.length + 1 =
      s.remaining.length + s.ready.length := by
  rw [sjfStep_busy s hre]
  have h1 : rest2.length + 1 = (sjfRdy s).length := by
    have := (sortStable_perm byBurst (sjfRdy s)).length_eq
    rw [hre] at this
    simpa using this
  have h2 : (sjfArrived s).length + (sjfRem s).length = s.remaining.length := by
    rw [← List.length_append, sjfArrived_append_sjfRem s]
  have h3 : (sjfRdy s).length = s.ready.length + (sjfArrived s).length := by
    simp [sjfRdy]
  show (sjfRem s).length + rest2.length + 1 = _
  omega

theorem sjfLoop_done : ∀ (k f : Nat) (s : SjfState),
    s.remaining.length + s.ready.length ≤ k → 2 * k + 1 ≤ f →
    (sjfLoop f s).remaining = [] ∧ (sjfLoop f s).ready = [] := by
  intro k
  induction k with
  | zero =>
      intro f s hk _
      have h1 : s.remaining = [] := List.length_eq_zero.mp (by omega)
      have h2 : s.ready = [] := List.length_eq_zero.mp (by omega)
      rw [sjfLoop_of_done f h1 h2]
      exact ⟨h1, h2⟩
  | succ k ih =>
      intro f s hk hf
      by_cases hdone : s.remaining = [] ∧ s.ready = []
      · rw [sjfLoop_of_done f hdone.1 hdone.2]
        exact hdone
      · obtain ⟨f, rfl⟩ : ∃ f', f = f' + 1 := ⟨f - 1, by omega⟩
        rw [sjfLoop, if_neg (by
          simp only [Bool.and_eq_true, List.isEmpty_iff]
          exact fun hc => hdone ⟨hc.1, hc.2⟩)]
        cases hre : sortStable byBurst (sjfRdy s) with
        | cons cur rest2 =>
            have := sjfStep_total_busy hre
            exact ih f (sjfStep s) (by omega) (by omega)
        | nil =>
            have hrdy : sjfRdy s = [] := by
              by_contra hc
              exact sortStable_ne_nil hc hre
            have hready : s.ready = [] := (List.append_eq_nil.mp hrdy).1
            have harr : sjfArrived s = [] := (List.append_eq_nil.mp hrdy).2
            cases hrem : sjfRem s with
            | nil =>
                exact absurd ⟨by rw [← sjfArrived_append_sjfRem s, harr, hrem]; rfl,
                  hready⟩ hdone
            | cons q rest =>
                have hremain : s.remaining = q :: rest := by
                  rw [← sjfArrived_append_sjfRem s, harr, hrem]
                  rfl
                rw [sjfStep_idle s hrdy hrem]
                obtain ⟨f, rfl⟩ : ∃ f', f = f' + 1 := ⟨f - 1, by omega⟩
                set s1 : SjfState :=
                  { s with
                    remaining := (q :: rest)
                    ready := []
                    time := q.arrival
                    timeline := s.timeline ++ unitsFor s.time (q.arrival - s.time) "IDLE" }
                  with hs1
                rw [sjfLoop, if_neg (by simp [hs1])]
                have harr1 : sjfArrived s1 ≠ [] := by
                  simp only [sjfArrived, hs1, List.takeWhile_cons]
                  simp
                have hrdy1 : sjfRdy s1 ≠ [] := by
                  simp only [sjfRdy]
                  intro hc
                  exact harr1 (List.append_eq_nil.mp hc).2
                cases hre1 : sortStable byBurst (sjfRdy s1) with
                | nil => exact absurd hre1 (sortStable_ne_nil hrdy1)
                | cons cur2 rest3 =>
                    have htot := sjfStep_total_busy hre1
                    have hs1tot : s1.remaining.length + s1.ready.length =
                        s.remaining.length := by
                      simp [hs1, hremain]
                    exact ih f (sjfStep s1) (by omega) (by omega)

theorem sjfRdy_mem_iff {l : List Process} {s : SjfState}
    (hnd : (l.map (·.pid)).Nodup) (inv : SjfInv l s) {p : Process} (hp : p ∈ l) :
    p ∈ sjfRdy s ↔ (p.arrival ≤ s.time ∧ p.pid ∉ s.results.map (·.pid)) := by
  have hcount := inv.pid_perm.count_eq p.pid
  have hle : (l.map (·.pid)).count p.pid ≤ 1 :=
    List.nodup_iff_count_le_one.mp hnd p.pid
  rw [List.count_append, List.count_append] at hcount
  constructor
  · intro hmem
    refine ⟨sjfRdy_arrived inv p hmem, ?_⟩
    intro hres
    have h1 : 1 ≤ (s.results.map (·.pid)).count p.pid :=
      List.one_le_count_iff.mpr hres
    have h2 : 1 ≤ (s.ready.map (·.pid)).count p.pid +
        (s.remaining.map (·.pid)).count p.pid := by
      rcases List.mem_append.mp hmem with h | h
      · have hc : 1 ≤ (s.ready.map (·.pid)).count p.pid :=
          List.one_le_count_iff.mpr (List.mem_map_of_mem (·.pid) h)
        omega
      · have hrem : p ∈ s.remaining := List.Sublist.mem h (List.takeWhile_sublist _)
        have hc : 1 ≤ (s.remaining.map (·.pid)).count p.pid :=
          List.one_le_count_iff.mpr (List.mem_map_of_mem (·.pid) hrem)
        omega
    omega
  · rintro ⟨harr, hres⟩
    have hl : 1 ≤ (l.map (·.pid)).count p.pid :=
      List.one_le_count_iff.mpr (List.mem_map_of_mem (·.pid) hp)
    have hres0 : (s.results.map (·.pid)).count p.pid = 0 :=
      List.count_eq_zero.mpr hres
    have : 1 ≤ (s.ready.map (·.pid)).count p.pid ∨
        1 ≤ (s.remaining.map (·.pid)).count p.pid := by omega
    rcases this with h | h
    · obtain ⟨q, hq, hqe⟩ := List.mem_map.mp (List.one_le_count_iff.mp h)
      obtain rfl : q = p := pid_inj hnd (inv.ready_mem q hq) hp hqe
      exact List.mem_append.mpr (Or.inl hq)
    · obtain ⟨q, hq, hqe⟩ := List.mem_map.mp (List.one_le_count_iff.mp h)
      obtain rfl : q = p := pid_inj hnd (inv.rem_mem q hq) hp hqe
      exact List.mem_append.mpr (Or.inr (mem_takeWhile_of_sorted inv.rem_pairwise hq harr))

/-- C3: at every decision point with a free CPU, `sjf_nonpreemptive_scheduler`
selects, among the processes that have arrived and not yet run, the one
with minimum `burstTime`, ties broken by earliest arrival and then by
original input order, and runs it to completion without preemption; when
no process has arrived it emits idle units covering the gap up to the
next arrival and retries.  The state after `k` loop iterations is
`sjfLoop k (sjfInit l)`; `sjfRdy` is the ready pool after the move
phase of the next iteration. -/
theorem sjf_decision_point_selection (l : List Process) (hv : ValidProcs l) (k : Nat) :
    (∀ p ∈ l, (p ∈ sjfRdy (sjfLoop k (sjfInit l)) ↔
      (p.arrival ≤ (sjfLoop k (sjfInit l)).time ∧
        p.pid ∉ (sjfLoop k (sjfInit l)).results.map (·.pid)))) ∧
    (∀ cur rest2, sortStable byBurst (sjfRdy (sjfLoop k (sjfInit l))) = cur :: rest2 →
      cur ∈ sjfRdy (sjfLoop k (sjfInit l)) ∧
      (∀ q ∈ sjfRdy (sjfLoop k (sjfInit l)), cur.burst ≤ q.burst) ∧
      (∀ q ∈ sjfRdy (sjfLoop k (sjfInit l)), q ≠ cur → q.burst = cur.burst →
        ArLex l cur q) ∧
      sjfStep (sjfLoop k (sjfInit l)) =
        { remaining := sjfRem (sjfLoop k (sjfInit l))
          ready := rest2
          time := (sjfLoop k (sjfInit l)).time + cur.burst
          gantt := (sjfLoop k (sjfInit l)).gantt ++
            [⟨cur.pid, (sjfLoop k (sjfInit l)).time,
              (sjfLoop k (sjfInit l)).time + cur.burst⟩]
          results := (sjfLoop k (sjfInit l)).results ++
            [⟨cur.pid, cur.arrival, cur.burst, (sjfLoop k (sjfInit l)).time + cur.burst,
              (((sjfLoop k (sjfInit l)).time + cur.burst : Nat) : Int) - cur.arrival,
              (((sjfLoop k (sjfInit l)).time + cur.burst : Nat) : Int) - cur.arrival -
                cur.burst⟩]
          timeline := (sjfLoop k (sjfInit l)).timeline ++
            unitsFor (sjfLoop k (sjfInit l)).time cur.burst cur.pid }) ∧
    (sjfRdy (sjfLoop k (sjfInit l)) = [] → ∀ q rest,
      sjfRem (sjfLoop k (sjfInit l)) = q :: rest →
      (∀ r ∈ (sjfLoop k (sjfInit l)).remaining, q.arrival ≤ r.arrival) ∧
      (sjfLoop k (sjfInit l)).time < q.arrival ∧
      sjfStep (sjfLoop k (sjfInit l)) =
        { sjfLoop k (sjfInit l) with
          remaining := (q :: rest)
          ready := []
          time := q.arrival
          timeline := (sjfLoop k (sjfInit l)).timeline ++
            unitsFor (sjfLoop k (sjfInit l)).time
              (q.arrival - (sjfLoop k (sjfInit l)).time) "IDLE" }) := by
  obtain ⟨hnd, hb, hid⟩ := hv
  have inv : SjfInv l (sjfLoop k (sjfInit l)) := sjfLoop_inv k (sjfInit_inv hnd)
  refine ⟨fun p hp => sjfRdy_mem_iff hnd inv hp, ?_, ?_⟩
  · intro cur rest2 hre
    have hmin := sortStable_head_min byBurst_trans byBurst_total (sjfRdy_pairwise inv)
      ((congrArg List.head? hre).trans rfl)
    refine ⟨hmin.1, ?_, ?_, sjfStep_busy _ hre⟩
    · intro q hq
      by_cases hqc : q = cur
      · subst hqc; exact Nat.le_refl _
      · have := (hmin.2 q hq hqc).1
        simpa [byBurst] using this
    · intro q hq hqc he
      have := (hmin.2 q hq hqc).2 (by simp [byBurst, Nat.le_of_eq he])
      exact this he.symm
  · intro hrdy q rest hrem
    have hready : (sjfLoop k (sjfInit l)).ready = [] := (List.append_eq_nil.mp hrdy).1
    have harr : sjfArrived (sjfLoop k (sjfInit l)) = [] := (List.append_eq_nil.mp hrdy).2
    have hremain : (sjfLoop k (sjfInit l)).remaining = q :: rest := by
      rw [← sjfArrived_append_sjfRem (sjfLoop k (sjfInit l)), harr, hrem]
      rfl
    have htq : (sjfLoop k (sjfInit l)).time < q.arrival := by
      refine dropWhile_arrival_gt inv.rem_pairwise q ?_
      rw [show (sjfLoop k (sjfInit l)).remaining.dropWhile
        (fun p => decide (p.arrival ≤ (sjfLoop k (sjfInit l)).time)) =
        sjfRem (sjfLoop k (sjfInit l)) from rfl, hrem]
      exact List.mem_cons_self _ _
    refine ⟨?_, htq, sjfStep_idle _ hrdy hrem⟩
    intro r hr
    rw [hremain] at hr
    rcases List.mem_cons.mp hr with rfl | hr
    · exact Nat.le_refl _
    · have := List.pairwise_cons.mp (by rw [← hremain]; exact inv.rem_pairwise)
      rcases this.1 r hr with h1 | ⟨h1, _⟩ <;> omega

theorem srtfAvailable_eq (procs : List Process) (s : SrtfState) :
    srtfAvailable procs s =
      procs.filter (fun p => decide (p.arrival ≤ s.time) && !(srtfDone s p.pid)) := rfl

theorem srtfStep_of_idle {procs : List Process} {s : SrtfState}
    (h : srtfAvailable procs s = []) :
    srtfStep procs s =
      { s with
        timeline := s.timeline ++ [⟨s.time, "IDLE"⟩]
        time := s.time + 1 } := by
  simp only [srtfStep, h, sortStable]
  rfl

theorem srtfStep_of_run {procs : List Process} {s : SrtfState} {cur : Process}
    {rest : List Process}
    (h : sortStable (fun p q => s.rem p.pid ≤ s.rem q.pid) (srtfAvailable procs s) =
      cur :: rest) :
    srtfStep procs s =
      { rem := fun k => if k = cur.pid then s.rem k - 1 else s.rem k
        completed := if s.rem cur.pid - 1 = 0 then
            s.completed ++ [(cur.pid, s.time + 1)] else s.completed
        timeline := s.timeline ++ [⟨s.time, cur.pid⟩]
        time := s.time + 1 } := by
  simp only [srtfStep, h, List.head?_cons, Option.some.injEq]
  rfl

theorem srtfInitRem_not_mem {procs : List Process} {k : String}
    (h : ∀ p ∈ procs, p.pid ≠ k) (f : String → Int) :
    procs.foldl (fun f p => fun j => if j = p.pid then (p.burst : Int) else f j) f k = f k := by
  induction procs generalizing f with
  | nil => rfl
  | cons q ps ih =>
      rw [List.foldl_cons, ih (fun p hp => h p (List.mem_cons_of_mem _ hp))]
      have : k ≠ q.pid := fun he => h q (List.mem_cons_self _ _) he.symm
      simp [this]

theorem srtfFoldRem_mem {ps : List Process} (hnd : (ps.map (·.pid)).Nodup)
    {p : Process} (hp : p ∈ ps) (f : String → Int) :
    ps.foldl (fun f q => fun j => if j = q.pid then (q.burst : Int) else f j) f p.pid =
      (p.burst : Int) := by
  induction ps generalizing f with
  | nil => cases hp
  | cons q rs ih =>
      rw [List.foldl_cons]
      rcases List.mem_cons.mp hp with rfl | hp'
      · have hnm : ∀ r ∈ rs, r.pid ≠ p.pid := by
          intro r hr he
          refine (List.nodup_cons.mp hnd).1 ?_
          have : p.pid ∈ rs.map (·.pid) := by
            rw [show p.pid = r.pid from he.symm]
            exact List.mem_map_of_mem (·.pid) hr
          exact this
        rw [srtfInitRem_not_mem hnm]
        simp
      · exact ih (List.nodup_cons.mp hnd).2 hp' _

theorem srtfInitRem_eq {procs : List Process} (hnd : (procs.map (·.pid)).Nodup) :
    ∀ p ∈ procs, srtfInitRem procs p.pid = (p.burst : Int) :=
  fun p hp => srtfFoldRem_mem hnd hp _

theorem srtfAvailable_mem {procs : List Process} {s : SrtfState} {p : Process} :
    p ∈ srtfAvailable procs s ↔
      p ∈ procs ∧ p.arrival ≤ s.time ∧ srtfDone s p.pid = false := by
  simp [srtfAvailable, srtfDone, List.mem_filter, and_assoc]

theorem srtfInit_inv {procs : List Process} (hnd : (procs.map (·.pid)).Nodup)
    (hpos : ∀ p ∈ procs, 0 < p.burst) : SrtfInv procs (srtfInit procs) := by
  refine ⟨?_, ?_, ?_, ?_, by simp [srtfInit], ?_, by simp [srtfInit],
    by simp [srtfInit], by simp [srtfInit], ?_, ?_⟩
  · intro p hp
    rw [show (srtfInit procs).rem = srtfInitRem procs from rfl, srtfInitRem_eq hnd p hp]
    exact Int.ofNat_nonneg _
  · intro p hp
    rw [show (srtfInit procs).rem = srtfInitRem procs from rfl, srtfInitRem_eq hnd p hp]
  · intro p hp hdone
    simp [srtfDone, srtfInit] at hdone
  · intro p hp _
    rw [show (srtfInit procs).rem = srtfInitRem procs from rfl, srtfInitRem_eq hnd p hp]
    have := hpos p hp
    omega
  · intro p hp
    rw [show (srtfInit procs).rem = srtfInitRem procs from rfl, srtfInitRem_eq hnd p hp]
    simp [srtfInit]
  · intro p hp
    rw [show (srtfInit procs).rem = srtfInitRem procs from rfl, srtfInitRem_eq hnd p hp]
    have : ((srtfInit procs).time : Int) = 0 := by simp [srtfInit]
    rw [this]
    have : max (0 : Int) (0 - (p.arrival : Int)) = 0 := by omega
    rw [this]
    omega
  · intro hlen hne
    exfalso
    have : procs.length = 0 := by simpa [srtfInit] using hlen.symm
    exact hne (List.length_eq_zero.mp this)

theorem srtfStep_inv {procs : List Process} {s : SrtfState}
    (hnd : (procs.map (·.pid)).Nodup) (hid : ∀ p ∈ procs, p.pid ≠ "IDLE")
    (hcount : s.completed.length < procs.length) (inv : SrtfInv procs s) :
    SrtfInv procs (srtfStep procs s) := by
  cases hre : sortStable (fun p q => s.rem p.pid ≤ s.rem q.pid) (srtfAvailable procs s) with
  | nil =>
      have havail : srtfAvailable procs s = [] := by
        by_contra hc
        exact sortStable_ne_nil hc hre
      rw [srtfStep_of_idle havail]
      refine ⟨inv.rem_nonneg, inv.rem_le, inv.completed_rem, inv.uncompleted_rem, ?_, ?_,
        ?_, ?_, inv.completed_nodup, ?_, ?_⟩
      · simp only [List.map_append, inv.timeline_times, List.map_cons, List.map_nil]
        rw [show ([s.time] : List Nat) = List.range' s.time 1 by simp [List.range'],
          range'_zero_append]
      · intro p hp
        rw [List.countP_append]
        have : (List.countP (fun e => decide (e.running = p.pid))
            ([⟨s.time, "IDLE"⟩] : List TimelineEntry)) = 0 := by
          have := hid p hp
          simp [List.countP_cons]
          intro hc
          exact absurd hc.symm this
        rw [this]
        simpa using inv.timeline_count p hp
      · intro e he
        rcases List.mem_append.mp he with h | h
        · exact inv.timeline_occupants e h
        · left
          simp only [List.mem_singleton] at h
          rw [h]
      · intro c hc
        obtain ⟨p, hp, h1, h2, h3⟩ := inv.completed_keys c hc
        refine ⟨p, hp, h1, h2, ?_⟩
        show c.2 ≤ s.time + 1
        omega
      · intro p hp
        have := inv.rem_lower p hp
        show (p.burst : Int) - max 0 (((s.time + 1 : Nat) : Int) - (p.arrival : Int)) ≤
          s.rem p.pid
        have h2 : ((s.time + 1 : Nat) : Int) = (s.time : Int) + 1 := by push_cast; ring
        rw [h2]
        omega
      · intro hlen _
        exact absurd (show s.completed.length = procs.length from hlen) (by omega)
  | cons cur rest =>
      have hcur_av : cur ∈ srtfAvailable procs s := mem_sortStable.mp (by rw [hre]; simp)
      obtain ⟨hcur_procs, hcur_arr, hcur_undone⟩ := srtfAvailable_mem.mp hcur_av
      have hcur_rem : 1 ≤ s.rem cur.pid := inv.uncompleted_rem cur hcur_procs hcur_undone
      have hpid_ne : ∀ p ∈ procs, p ≠ cur → p.pid ≠ cur.pid := by
        intro p hp hne he
        exact hne (pid_inj hnd hp hcur_procs he)
      rw [srtfStep_of_run hre]
      have hdone_new : ∀ (t : Nat) (k : String),
          (s.completed ++ [(cur.pid, t)]).any (fun c => c.1 = k) =
            (srtfDone s k || decide (cur.pid = k)) := by
        intro t k
        simp [srtfDone, List.any_append]
      have hkeys_old : ∀ c ∈ s.completed, c.1 ≠ cur.pid := by
        intro c hc he
        have : srtfDone s cur.pid = true := by
          simp only [srtfDone, List.any_eq_true]
          exact ⟨c, hc, by simp [he]⟩
        rw [this] at hcur_undone
        cases hcur_undone
      have htimes : (s.timeline ++ [(⟨s.time, cur.pid⟩ : TimelineEntry)]).map (·.time) =
          List.range' 0 (s.time + 1) := by
        simp only [List.map_append, inv.timeline_times, List.map_cons, List.map_nil]
        rw [show ([s.time] : List Nat) = List.range' s.time 1 by simp [List.range'],
          range'_zero_append]
      have hcount_new : ∀ p ∈ procs,
          ((List.countP (fun e => decide (e.running = p.pid))
            (s.timeline ++ [(⟨s.time, cur.pid⟩ : TimelineEntry)])) : Int) =
          (p.burst : Int) - (if p.pid = cur.pid then s.rem p.pid - 1 else s.rem p.pid) := by
        intro p hp
        rw [List.countP_append]
        by_cases hpc : p = cur
        · subst hpc
          have h1 : (List.countP (fun e => decide (e.running = p.pid))
              ([⟨s.time, p.pid⟩] : List TimelineEntry)) = 1 := by simp
          rw [h1, if_pos rfl]
          have := inv.timeline_count p hp
          push_cast
          omega
        · have h1 : (List.countP (fun e => decide (e.running = p.pid))
              ([⟨s.time, cur.pid⟩] : List TimelineEntry)) = 0 := by
            simp only [List.countP_cons, List.countP_nil]
            have := hpid_ne p hp hpc
            simp only [decide_eq_true_eq]
            rw [if_neg (by simpa using fun he => this he.symm)]
          rw [h1, if_neg (hpid_ne p hp hpc)]
          simpa using inv.timeline_count p hp
      have hocc_new : ∀ e ∈ s.timeline ++ [(⟨s.time, cur.pid⟩ : TimelineEntry)],
          e.running = "IDLE" ∨ ∃ p ∈ procs, e.running = p.pid := by
        intro e he
        rcases List.mem_append.mp he with h | h
        · exact inv.timeline_occupants e h
        · right
          simp only [List.mem_singleton] at h
          exact ⟨cur, hcur_procs, by rw [h]⟩
      have hlower_new : ∀ p ∈ procs,
          (p.burst : Int) - max 0 (((s.time + 1 : Nat) : Int) - (p.arrival : Int)) ≤
            (if p.pid = cur.pid then s.rem p.pid - 1 else s.rem p.pid) := by
        intro p hp
        have hlow := inv.rem_lower p hp
        have h2 : ((s.time + 1 : Nat) : Int) = (s.time : Int) + 1 := by push_cast; ring
        rw [h2]
        by_cases hpc : p = cur
        · subst hpc
          rw [if_pos rfl]
          have harr : (p.arrival : Int) ≤ (s.time : Int) := by exact_mod_cast hcur_arr
          omega
        · rw [if_neg (hpid_ne p hp hpc)]
          omega
      by_cases hfin : s.rem cur.pid - 1 = 0
      · rw [if_pos hfin]
        refine ⟨?_, ?_, ?_, ?_, htimes, hcount_new, hocc_new, ?_, ?_, hlower_new, ?_⟩
        · intro p hp
          show (0 : Int) ≤ if p.pid = cur.pid then s.rem p.pid - 1 else s.rem p.pid
          by_cases hpc : p = cur
          · subst hpc
            rw [if_pos rfl]
            omega
          · rw [if_neg (hpid_ne p hp hpc)]
            exact inv.rem_nonneg p hp
        · intro p hp
          show (if p.pid = cur.pid then s.rem p.pid - 1 else s.rem p.pid) ≤ (p.burst : Int)
          by_cases hpc : p = cur
          · subst hpc
            rw [if_pos rfl]
            have := inv.rem_le p hp
            omega
          · rw [if_neg (hpid_ne p hp hpc)]
            exact inv.rem_le p hp
        · intro p hp hd
          show (if p.pid = cur.pid then s.rem p.pid - 1 else s.rem p.pid) = 0
          by_cases hpc : p = cur
          · subst hpc
            rw [if_pos rfl]
            exact hfin
          · rw [if_neg (hpid_ne p hp hpc)]
            refine inv.completed_rem p hp ?_
            have := hdone_new (s.time + 1) p.pid
            rw [show srtfDone
                { rem := fun k => if k = cur.pid then s.rem k - 1 else s.rem k,
                  completed := s.completed ++ [(cur.pid, s.time + 1)],
                  timeline := s.timeline ++ [(⟨s.time, cur.pid⟩ : TimelineEntry)],
                  time := s.time + 1 } p.pid =
              (s.completed ++ [(cur.pid, s.time + 1)]).any (fun c => c.1 = p.pid)
              from rfl, this] at hd
            rcases Bool.or_eq_true_iff.mp hd with h | h
            · exact h
            · exact absurd (of_decide_eq_true h).symm (hpid_ne p hp hpc)
        · intro p hp hd
          show 1 ≤ if p.pid = cur.pid then s.rem p.pid - 1 else s.rem p.pid
          by_cases hpc : p = cur
          · exfalso
            subst hpc
            have := hdone_new (s.time + 1) p.pid
            rw [show srtfDone
                { rem := fun k => if k = p.pid then s.rem k - 1 else s.rem k,
                  completed := s.completed ++ [(p.pid, s.time + 1)],
                  timeline := s.timeline ++ [(⟨s.time, p.pid⟩ : TimelineEntry)],
                  time := s.time + 1 } p.pid =
              (s.completed ++ [(p.pid, s.time + 1)]).any (fun c => c.1 = p.pid)
              from rfl, this] at hd
            simp at hd
          · rw [if_neg (hpid_ne p hp hpc)]
            refine inv.uncompleted_rem p hp ?_
            have := hdone_new (s.time + 1) p.pid
            rw [show srtfDone
                { rem := fun k => if k = cur.pid then s.rem k - 1 else s.rem k,
                  completed := s.completed ++ [(cur.pid, s.time + 1)],
                  timeline := s.timeline ++ [(⟨s.time, cur.pid⟩ : TimelineEntry)],
                  time := s.time + 1 } p.pid =
              (s.completed ++ [(cur.pid, s.time + 1)]).any (fun c => c.1 = p.pid)
              from rfl, this] at hd
            exact (Bool.or_eq_false_iff.mp hd).1
        · intro c hc
          rcases List.mem_append.mp hc with h | h
          · obtain ⟨p, hp, h1, h2, h3⟩ := inv.completed_keys c h
            exact ⟨p, hp, h1, h2, by show c.2 ≤ s.time + 1; omega⟩
          · simp only [List.mem_singleton] at h
            subst h
            refine ⟨cur, hcur_procs, rfl, ?_, by show s.time + 1 ≤ s.time + 1; omega⟩
            have hlow := inv.rem_lower cur hcur_procs
            have harr : (cur.arrival : Int) ≤ (s.time : Int) := by exact_mod_cast hcur_arr
            show cur.arrival + cur.burst ≤ s.time + 1
            omega
        · show ((s.completed ++ [(cur.pid, s.time + 1)]).map (·.1)).Nodup
          rw [List.map_append]
          refine List.Nodup.append inv.completed_nodup (by simp) ?_
          intro a ha hb
          simp only [List.map_cons, List.map_nil, List.mem_singleton] at hb
          obtain ⟨c, hc, rfl⟩ := List.mem_map.mp ha
          exact hkeys_old c hc hb
        · intro _ _
          refine ⟨(cur.pid, s.time + 1), List.mem_append.mpr (Or.inr (by simp)), rfl⟩
      · rw [if_neg hfin]
        refine ⟨?_, ?_, ?_, ?_, htimes, hcount_new, hocc_new, ?_, inv.completed_nodup,
          hlower_new, ?_⟩
        · intro p hp
          show (0 : Int) ≤ if p.pid = cur.pid then s.rem p.pid - 1 else s.rem p.pid
          by_cases hpc : p = cur
          · subst hpc
            rw [if_pos rfl]
            omega
          · rw [if_neg (hpid_ne p hp hpc)]
            exact inv.rem_nonneg p hp
        · intro p hp
          show (if p.pid = cur.pid then s.rem p.pid - 1 else s.rem p.pid) ≤ (p.burst : Int)
          by_cases hpc : p = cur
          · subst hpc
            rw [if_pos rfl]
            have := inv.rem_le p hp
            omega
          · rw [if_neg (hpid_ne p hp hpc)]
            exact inv.rem_le p hp
        · intro p hp hd
          show (if p.pid = cur.pid then s.rem p.pid - 1 else s.rem p.pid) = 0
          have hd' : srtfDone s p.pid = true := hd
          by_cases hpc : p = cur
          · subst hpc
            rw [hd'] at hcur_undone
            cases hcur_undone
          · rw [if_neg (hpid_ne p hp hpc)]
            exact inv.completed_rem p hp hd'
        · intro p hp hd
          show 1 ≤ if p.pid = cur.pid then s.rem p.pid - 1 else s.rem p.pid
          have hd' : srtfDone s p.pid = false := hd
          by_cases hpc : p = cur
          · subst hpc
            rw [if_pos rfl]
            omega
          · rw [if_neg (hpid_ne p hp hpc)]
            exact inv.uncompleted_rem p hp hd'
        · intro c hc
          obtain ⟨p, hp, h1, h2, h3⟩ := inv.completed_keys c hc
          exact ⟨p, hp, h1, h2, by show c.2 ≤ s.time + 1; omega⟩
        · intro hlen _
          exact absurd (show s.completed.length = procs.length from hlen) (by omega)

theorem le_foldr_max {x : Nat} {xs : List Nat} (h : x ∈ xs) : x ≤ xs.foldr max 0 := by
  induction xs with
  | nil => cases h
  | cons y ys ih =>
      rcases List.mem_cons.mp h with rfl | h'
      · exact Nat.le_max_left _ _
      · exact Nat.le_trans (ih h') (Nat.le_max_right _ _)

theorem srtf_count_le {procs : List Process} {s : SrtfState} (inv : SrtfInv procs s) :
    s.completed.length ≤ procs.length := by
  have hsub : (s.completed.map (·.1)) ⊆ procs.map (·.pid) := by
    intro a ha
    obtain ⟨c, hc, rfl⟩ := List.mem_map.mp ha
    obtain ⟨p, hp, h1, _, _⟩ := inv.completed_keys c hc
    rw [h1]
    exact List.mem_map_of_mem (·.pid) hp
  have := (inv.completed_nodup.subperm hsub).length_le
  simpa using this

theorem srtf_exists_undone {procs : List Process} {s : SrtfState}
    (hnd : (procs.map (·.pid)).Nodup) (inv : SrtfInv procs s)
    (hcount : s.completed.length < procs.length) :
    ∃ p ∈ procs, srtfDone s p.pid = false := by
  by_contra hc
  push_neg at hc
  have hall : ∀ p ∈ procs, srtfDone s p.pid = true := by
    intro p hp
    cases h : srtfDone s p.pid with
    | true => rfl
    | false => exact absurd h (hc p hp)
  have hsub : (procs.map (·.pid)) ⊆ s.completed.map (·.1) := by
    intro a ha
    obtain ⟨p, hp, rfl⟩ := List.mem_map.mp ha
    have := hall p hp
    simp only [srtfDone, List.any_eq_true] at this
    obtain ⟨c, hc', he⟩ := this
    rw [← show c.1 = p.pid from of_decide_eq_true he]
    exact List.mem_map_of_mem (·.1) hc'
  have := (hnd.subperm hsub).length_le
  simp only [List.length_map] at this
  omega

theorem srtfStep_pot {procs : List Process} {s : SrtfState}
    (hnd : (procs.map (·.pid)).Nodup)
    (hcount : s.completed.length < procs.length) (inv : SrtfInv procs s) :
    srtfPot procs (srtfStep procs s) < srtfPot procs s := by
  have hprocs_nodup : procs.Nodup := List.Nodup.of_map (fun p => p.pid) hnd
  cases hre : sortStable (fun p q => s.rem p.pid ≤ s.rem q.pid) (srtfAvailable procs s) with
  | nil =>
      have havail : srtfAvailable procs s = [] := by
        by_contra hc
        exact sortStable_ne_nil hc hre
      rw [srtfStep_of_idle havail]
      obtain ⟨p, hp, hundone⟩ := srtf_exists_undone hnd inv hcount
      have hnotav : p ∉ srtfAvailable procs s := by rw [havail]; simp
      have harr : ¬ (p.arrival ≤ s.time) := by
        intro harr
        exact hnotav (srtfAvailable_mem.mpr ⟨hp, harr, hundone⟩)
      have hmax : p.arrival ≤ (procs.map (·.arrival)).foldr max 0 :=
        le_foldr_max (List.mem_map_of_mem (·.arrival) hp)
      show (((procs.filter (fun q => !(srtfDone s q.pid))).map
          (fun q => (s.rem q.pid).toNat)).sum +
        ((procs.map (·.arrival)).foldr max 0 + 1 - (s.time + 1))) < srtfPot procs s
      rw [srtfPot]
      omega
  | cons cur rest =>
      have hcur_av : cur ∈ srtfAvailable procs s := mem_sortStable.mp (by rw [hre]; simp)
      obtain ⟨hcur_procs, hcur_arr, hcur_undone⟩ := srtfAvailable_mem.mp hcur_av
      have hcur_rem : 1 ≤ s.rem cur.pid := inv.uncompleted_rem cur hcur_procs hcur_undone
      have hpid_ne : ∀ p ∈ procs, p ≠ cur → p.pid ≠ cur.pid := by
        intro p hp hne he
        exact hne (pid_inj hnd hp hcur_procs he)
      rw [srtfStep_of_run hre]
      have hFmem : cur ∈ procs.filter (fun p => !(srtfDone s p.pid)) :=
        List.mem_filter.mpr ⟨hcur_procs, by simp [hcur_undone]⟩
      have hFnodup : (procs.filter (fun p => !(srtfDone s p.pid))).Nodup :=
        hprocs_nodup.filter _
      have hperm := List.perm_cons_erase hFmem
      have hsum_old : ((procs.filter (fun p => !(srtfDone s p.pid))).map
          (fun p => (s.rem p.pid).toNat)).sum =
          (s.rem cur.pid).toNat +
          (((procs.filter (fun p => !(srtfDone s p.pid))).erase cur).map
            (fun p => (s.rem p.pid).toNat)).sum := by
        rw [(hperm.map (fun p => (s.rem p.pid).toNat)).sum_eq]
        simp
      have herase_ne : ∀ p ∈ (procs.filter (fun p => !(srtfDone s p.pid))).erase cur,
          p.pid ≠ cur.pid := by
        intro p hp
        have h1 := (hFnodup.mem_erase_iff.mp hp).1
        have h2 := List.mem_filter.mp (hFnodup.mem_erase_iff.mp hp).2
        exact hpid_ne p h2.1 h1
      by_cases hfin : s.rem cur.pid - 1 = 0
      · rw [if_pos hfin]
        have hF' : procs.filter (fun p =>
            !((s.completed ++ [(cur.pid, s.time + 1)]).any (fun c => c.1 = p.pid))) =
            (procs.filter (fun p => !(srtfDone s p.pid))).filter
              (fun p => !(decide (cur.pid = p.pid))) := by
          rw [List.filter_filter]
          refine List.filter_congr ?_
          intro p _
          simp [srtfDone, List.any_append, Bool.not_or, Bool.and_comm]
        have hF'2 : (procs.filter (fun p => !(srtfDone s p.pid))).filter
              (fun p => !(decide (cur.pid = p.pid))) =
            (procs.filter (fun p => !(srtfDone s p.pid))).erase cur := by
          rw [hFnodup.erase_eq_filter cur]
          refine List.filter_congr ?_
          intro p hp
          have hpp := List.mem_filter.mp hp
          by_cases hpc : p = cur
          · subst hpc
            simp [bne]
          · have hne := hpid_ne p hpp.1 hpc
            have h1 : decide (cur.pid = p.pid) = false := by
              simp only [decide_eq_false_iff_not]
              intro he
              exact hne he.symm
            have h2 : (p != cur) = true := by
              simp [bne, hpc]
            rw [h1, h2]
            rfl
        show ((procs.filter (fun p =>
            !((s.completed ++ [(cur.pid, s.time + 1)]).any (fun c => c.1 = p.pid)))).map
            (fun p => (if p.pid = cur.pid then s.rem p.pid - 1 else s.rem p.pid).toNat)).sum +
            ((procs.map (·.arrival)).foldr max 0 + 1 - (s.time + 1)) < srtfPot procs s
        rw [hF', hF'2]
        have hcongr : (((procs.filter (fun p => !(srtfDone s p.pid))).erase cur).map
            (fun p => (if p.pid = cur.pid then s.rem p.pid - 1 else s.rem p.pid).toNat)) =
            (((procs.filter (fun p => !(srtfDone s p.pid))).erase cur).map
            (fun p => (s.rem p.pid).toNat)) := by
          refine List.map_congr_left ?_
          intro p hp
          rw [if_neg (herase_ne p hp)]
        rw [hcongr, srtfPot]
        omega
      · rw [if_neg hfin]
        have hF' : procs.filter (fun p =>
            !(s.completed.any (fun c => c.1 = p.pid))) =
            procs.filter (fun p => !(srtfDone s p.pid)) := rfl
        show ((procs.filter (fun p =>
            !(s.completed.any (fun c => c.1 = p.pid)))).map
            (fun p => (if p.pid = cur.pid then s.rem p.pid - 1 else s.rem p.pid).toNat)).sum +
            ((procs.map (·.arrival)).foldr max 0 + 1 - (s.time + 1)) < srtfPot procs s
        rw [hF']
        have hcongr2 : (((procs.filter (fun p => !(srtfDone s p.pid))).erase cur).map
            (fun p => (if p.pid = cur.pid then s.rem p.pid - 1 else s.rem p.pid).toNat)) =
            (((procs.filter (fun p => !(srtfDone s p.pid))).erase cur).map
            (fun p => (s.rem p.pid).toNat)) := by
          refine List.map_congr_left ?_
          intro p hp
          rw [if_neg (herase_ne p hp)]
        have hsum_new : ((procs.filter (fun p => !(srtfDone s p.pid))).map
            (fun p => (if p.pid = cur.pid then s.rem p.pid - 1 else s.rem p.pid).toNat)).sum =
            (s.rem cur.pid - 1).toNat +
            (((procs.filter (fun p => !(srtfDone s p.pid))).erase cur).map
              (fun p => (s.rem p.pid).toNat)).sum := by
          rw [(hperm.map
            (fun p => (if p.pid = cur.pid then s.rem p.pid - 1 else s.rem p.pid).toNat)).sum_eq]
          simp only [List.map_cons, List.sum_cons, if_pos rfl]
          rw [hcongr2]
          simp
        rw [hsum_new, srtfPot]
        omega

theorem srtfLoop_zero (procs : List Process) (n : Nat) (s : SrtfState) :
    srtfLoop procs n 0 s = s := rfl

theorem srtfLoop_of_done {procs : List Process} {n : Nat} {s : SrtfState} (f : Nat)
    (h : ¬ s.completed.length < n) : srtfLoop procs n f s = s := by
  cases f with
  | zero => rfl
  | succ f => rw [srtfLoop, if_neg h]

theorem srtfLoop_inv {procs : List Process} (hnd : (procs.map (·.pid)).Nodup)
    (hid : ∀ p ∈ procs, p.pid ≠ "IDLE") (f : Nat) {s : SrtfState}
    (inv : SrtfInv procs s) :
    SrtfInv procs (srtfLoop procs procs.length f s) := by
  induction f generalizing s with
  | zero => exact inv
  | succ f ih =>
      rw [srtfLoop]
      by_cases h : s.completed.length < procs.length
      · rw [if_pos h]
        exact ih (srtfStep_inv hnd hid h inv)
      · rw [if_neg h]
        exact inv

theorem srtfLoop_complete {procs : List Process} (hnd : (procs.map (·.pid)).Nodup)
    (hid : ∀ p ∈ procs, p.pid ≠ "IDLE") :
    ∀ (f : Nat) (s : SrtfState), SrtfInv procs s → srtfPot procs s ≤ f →
    (srtfLoop procs procs.length f s).completed.length = procs.length := by
  have hdone_of_pot : ∀ s : SrtfState, SrtfInv procs s → srtfPot procs s = 0 →
      s.completed.length = procs.length := by
    intro s inv hpot
    have hle := srtf_count_le inv
    by_contra hc
    have hlt : s.completed.length < procs.length := by omega
    obtain ⟨p, hp, hundone⟩ := srtf_exists_undone hnd inv hlt
    have hrem := inv.uncompleted_rem p hp hundone
    have hmem : (s.rem p.pid).toNat ∈ (procs.filter (fun q => !(srtfDone s q.pid))).map
        (fun q => (s.rem q.pid).toNat) :=
      List.mem_map_of_mem _ (List.mem_filter.mpr ⟨hp, by simp [hundone]⟩)
    have := List.single_le_sum (fun (x : Nat) _ => Nat.zero_le x) _ hmem
    rw [srtfPot] at hpot
    omega
  intro f
  induction f with
  | zero =>
      intro s inv hpot
      exact hdone_of_pot s inv (by omega)
  | succ f ih =>
      intro s inv hpot
      by_cases h : s.completed.length < procs.length
      · rw [srtfLoop, if_pos h]
        exact ih (srtfStep procs s) (srtfStep_inv hnd hid h inv)
          (by have := srtfStep_pot hnd h inv; omega)
      · rw [srtfLoop, if_neg h]
        have := srtf_count_le inv
        omega

theorem sum_map_add {l : List α} (f g : α → Nat) :
    (l.map (fun x => f x + g x)).sum = (l.map f).sum + (l.map g).sum := by
  induction l with
  | nil => rfl
  | cons x xs ih =>
      simp only [List.map_cons, List.sum_cons, ih]
      omega

theorem sum_indicator_one {procs : List Process} (hnd : (procs.map (·.pid)).Nodup)
    {x : String} {q : Process} (hq : q ∈ procs) (he : x = q.pid) :
    (procs.map (fun p => if x = p.pid then (1 : Nat) else 0)).sum = 1 := by
  induction procs with
  | nil => cases hq
  | cons r rs ih =>
      simp only [List.map_cons, List.sum_cons]
      rcases List.mem_cons.mp hq with rfl | hq'
      · rw [if_pos he]
        have hz : ∀ p ∈ rs, x ≠ p.pid := by
          intro p hp hxp
          refine (List.nodup_cons.mp hnd).1 ?_
          show q.pid ∈ rs.map (·.pid)
          rw [show q.pid = p.pid from he ▸ hxp]
          exact List.mem_map_of_mem (·.pid) hp
        have : (rs.map (fun p => if x = p.pid then (1 : Nat) else 0)).sum = 0 := by
          refine List.sum_eq_zero ?_
          intro y hy
          obtain ⟨p, hp, rfl⟩ := List.mem_map.mp hy
          rw [if_neg (hz p hp)]
        omega
      · have hne : x ≠ r.pid := by
          intro hxr
          refine (List.nodup_cons.mp hnd).1 ?_
          show r.pid ∈ rs.map (·.pid)
          rw [show r.pid = q.pid from hxr ▸ he]
          exact List.mem_map_of_mem (·.pid) hq'
        rw [if_neg hne, ih (List.nodup_cons.mp hnd).2 hq']

theorem countP_busy_eq {procs : List Process} (hnd : (procs.map (·.pid)).Nodup)
    (hid : ∀ p ∈ procs, p.pid ≠ "IDLE") :
    ∀ (tl : List TimelineEntry),
    (∀ e ∈ tl, e.running = "IDLE" ∨ ∃ p ∈ procs, e.running = p.pid) →
    tl.countP (fun e => !(e.running = "IDLE")) =
      (procs.map (fun p => tl.countP (fun e => e.running = p.pid))).sum := by
  intro tl
  induction tl with
  | nil =>
      intro _
      simp only [List.countP_nil]
      exact (List.sum_eq_zero (by simp)).symm
  | cons e tl ih =>
      intro hocc
      have htl := ih (fun e' he' => hocc e' (List.mem_cons_of_mem _ he'))
      have hsplit : (procs.map (fun p => (e :: tl).countP (fun e' => e'.running = p.pid))) =
          (procs.map (fun p => tl.countP (fun e' => e'.running = p.pid) +
            (if e.running = p.pid then 1 else 0))) := by
        refine List.map_congr_left ?_
        intro p _
        rw [List.countP_cons]
        congr 1
        by_cases h : e.running = p.pid
        · rw [if_pos h, if_pos (by simpa using h)]
        · rw [if_neg h, if_neg (by simpa using h)]
      rw [hsplit, sum_map_add, List.countP_cons, ← htl]
      congr 1
      rcases hocc e (List.mem_cons_self _ _) with hidle | ⟨q, hq, hqe⟩
      · have h1 : (if (!decide (e.running = "IDLE")) = true then 1 else 0) = 0 := by
          simp [hidle]
        have h2 : (procs.map (fun p => if e.running = p.pid then (1 : Nat) else 0)).sum = 0 := by
          refine List.sum_eq_zero ?_
          intro y hy
          obtain ⟨p, hp, rfl⟩ := List.mem_map.mp hy
          rw [if_neg (by rw [hidle]; exact fun hc => hid p hp hc.symm)]
        rw [h1, h2]
      · have h1 : (if (!decide (e.running = "IDLE")) = true then 1 else 0) = 1 := by
          have : e.running ≠ "IDLE" := by rw [hqe]; exact hid q hq
          simp [this]
        rw [h1]
        exact (sum_indicator_one hnd hq hqe).symm

theorem foldr_max_le {xs : List Nat} {m : Nat} (h : ∀ y ∈ xs, y ≤ m) :
    xs.foldr max 0 ≤ m := by
  induction xs with
  | nil => simp
  | cons x xs ih =>
      simp only [List.foldr_cons]
      have h1 := h x (by simp)
      have h2 := ih (fun y hy => h y (List.mem_cons_of_mem _ hy))
      omega

theorem foldr_max_of_mem {xs : List Nat} {m : Nat} (hm : m ∈ xs)
    (hle : ∀ y ∈ xs, y ≤ m) : xs.foldr max 0 = m :=
  Nat.le_antisymm (foldr_max_le hle) (le_foldr_max hm)

theorem mapM_option_some {f : α → Option β} :
    ∀ {l : List α}, (∀ a ∈ l, ∃ b, f a = some b) → ∃ bs, l.mapM f = some bs := by
  intro l
  induction l with
  | nil => exact fun _ => ⟨[], rfl⟩
  | cons a l ih =>
      intro h
      obtain ⟨b, hb⟩ := h a (by simp)
      obtain ⟨bs, hbs⟩ := ih (fun x hx => h x (List.mem_cons_of_mem _ hx))
      exact ⟨b :: bs, by rw [List.mapM_cons, hb, hbs]; rfl⟩

theorem mapM_option_mem_of_mem {f : α → Option β} :
    ∀ {l : List α} {bs : List β}, l.mapM f = some bs →
      ∀ b ∈ bs, ∃ a ∈ l, f a = some b := by
  intro l
  induction l with
  | nil =>
      intro bs h b hb
      rw [show ([] : List α).mapM f = some [] from rfl] at h
      cases h
      cases hb
  | cons a l ih =>
      intro bs h b hb
      rw [List.mapM_cons] at h
      cases ha : f a with
      | none => rw [ha] at h; cases h
      | some b0 =>
          rw [ha] at h
          cases hl : l.mapM f with
          | none => rw [hl] at h; cases h
          | some bs0 =>
              rw [hl] at h
              have : b0 :: bs0 = bs := by
                simpa [Option.bind] using h
              rw [← this] at hb
              rcases List.mem_cons.mp hb with rfl | hb'
              · exact ⟨a, by simp, ha⟩
              · obtain ⟨a', ha', hfa'⟩ := ih hl b hb'
                exact ⟨a', List.mem_cons_of_mem _ ha', hfa'⟩

theorem mapM_option_mem_of_mem' {f : α → Option β} :
    ∀ {l : List α} {bs : List β}, l.mapM f = some bs →
      ∀ a ∈ l, ∃ b ∈ bs, f a = some b := by
  intro l
  induction l with
  | nil =>
      intro bs _ a ha
      cases ha
  | cons a0 l ih =>
      intro bs h a ha
      rw [List.mapM_cons] at h
      cases ha0 : f a0 with
      | none => rw [ha0] at h; cases h
      | some b0 =>
          rw [ha0] at h
          cases hl : l.mapM f with
          | none => rw [hl] at h; cases h
          | some bs0 =>
              rw [hl] at h
              have hbs : b0 :: bs0 = bs := by simpa [Option.bind] using h
              rcases List.mem_cons.mp ha with rfl | ha'
              · exact ⟨b0, by rw [← hbs]; simp, ha0⟩
              · obtain ⟨b, hb, hfb⟩ := ih hl a ha'
                exact ⟨b, by rw [← hbs]; exact List.mem_cons_of_mem _ hb, hfb⟩

theorem lookupCT_eq {completed : List (String × Nat)}
    (hnd : (completed.map (·.1)).Nodup) {c : String × Nat} (hc : c ∈ completed) :
    lookupCT completed c.1 = some c.2 := by
  rw [lookupCT]
  cases hf : completed.find? (fun x => x.1 = c.1) with
  | none =>
      exfalso
      have := List.find?_eq_none.mp hf c hc
      simp at this
  | some c' =>
      have h1 : c'.1 = c.1 := by simpa using List.find?_some hf
      have h2 : c' ∈ completed := List.mem_of_find?_eq_some hf
      have : c' = c := List.inj_on_of_nodup_map hnd h2 hc h1
      rw [this]
      rfl

theorem valid_sorted {l : List Process} (hv : ValidProcs l) :
    ((sortStable byArrival l).map (·.pid)).Nodup ∧
    (∀ p ∈ sortStable byArrival l, 0 < p.burst) ∧
    (∀ p ∈ sortStable byArrival l, p.pid ≠ "IDLE") := by
  obtain ⟨hnd, hpos, hid⟩ := hv
  refine ⟨?_, ?_, ?_⟩
  · exact (((sortStable_perm byArrival l).map (·.pid)).nodup_iff).mpr hnd
  · exact fun p hp => hpos p (mem_sortStable.mp hp)
  · exact fun p hp => hid p (mem_sortStable.mp hp)

theorem srtf_final_facts {l : List Process} (hv : ValidProcs l) :
    SrtfInv (sortStable byArrival l) (srtfFinal l) ∧
    (srtfFinal l).completed.length = (sortStable byArrival l).length := by
  obtain ⟨hnd, hpos, hid⟩ := valid_sorted hv
  have hinit := srtfInit_inv hnd hpos
  have hpot : srtfPot (sortStable byArrival l) (srtfInit (sortStable byArrival l)) ≤
      srtfFuel (sortStable byArrival l) := by
    rw [srtfPot, srtfFuel]
    have hfil : (sortStable byArrival l).filter
        (fun p => !(srtfDone (srtfInit (sortStable byArrival l)) p.pid)) =
        sortStable byArrival l := by
      refine List.filter_eq_self.mpr ?_
      intro p _
      simp [srtfDone, srtfInit]
    rw [hfil]
    have hmap : (sortStable byArrival l).map
        (fun p => ((srtfInit (sortStable byArrival l)).rem p.pid).toNat) =
        (sortStable byArrival l).map (·.burst) := by
      refine List.map_congr_left ?_
      intro p hp
      rw [show (srtfInit (sortStable byArrival l)).rem = srtfInitRem (sortStable byArrival l)
        from rfl, srtfInitRem_eq hnd p hp]
      simp
    rw [hmap]
    have : (srtfInit (sortStable byArrival l)).time = 0 := rfl
    rw [this]
    omega
  exact ⟨srtfLoop_inv hnd hid _ hinit,
    srtfLoop_complete hnd hid _ _ hinit hpot⟩

theorem srtf_keys_perm {l : List Process} (hv : ValidProcs l) :
    List.Perm ((srtfFinal l).completed.map (·.1))
      ((sortStable byArrival l).map (·.pid)) := by
  obtain ⟨inv, hcomplete⟩ := srtf_final_facts hv
  have hsub : ((srtfFinal l).completed.map (·.1)) ⊆ (sortStable byArrival l).map (·.pid) := by
    intro a ha
    obtain ⟨c, hc, rfl⟩ := List.mem_map.mp ha
    obtain ⟨p, hp, h1, _, _⟩ := inv.completed_keys c hc
    rw [h1]
    exact List.mem_map_of_mem (·.pid) hp
  refine (inv.completed_nodup.subperm hsub).perm_of_length_le ?_
  simp [hcomplete]

theorem srtf_all_done {l : List Process} (hv : ValidProcs l) :
    ∀ p ∈ sortStable byArrival l, ∃ c ∈ (srtfFinal l).completed, c.1 = p.pid := by
  intro p hp
  have := (srtf_keys_perm hv).mem_iff.mpr (List.mem_map_of_mem (·.pid) hp)
  obtain ⟨c, hc, he⟩ := List.mem_map.mp this
  exact ⟨c, hc, he⟩

theorem srtf_scheduler_eq {l : List Process} (hv : ValidProcs l) (hne : l ≠ []) :
    ∃ rows, srtf_scheduler l =
      some (mergeTimeline (srtfFinal l).timeline, rows, (srtfFinal l).timeline) ∧
      (sortStable byArrival l).mapM
        (fun p => (lookupCT (srtfFinal l).completed p.pid).map (srtfRow p)) = some rows := by
  obtain ⟨inv, hcomplete⟩ := srtf_final_facts hv
  have hsome : ∀ p ∈ sortStable byArrival l,
      ∃ b, (lookupCT (srtfFinal l).completed p.pid).map (srtfRow p) = some b := by
    intro p hp
    obtain ⟨c, hc, he⟩ := srtf_all_done hv p hp
    refine ⟨srtfRow p c.2, ?_⟩
    rw [← he, lookupCT_eq inv.completed_nodup hc]
    rfl
  obtain ⟨rows, hrows⟩ := mapM_option_some hsome
  refine ⟨rows, ?_, hrows⟩
  rw [srtf_scheduler, if_neg (by simp [hne])]
  show (if (srtfFinal l).completed.length < (sortStable byArrival l).length then none
    else ((sortStable byArrival l).mapM
        (fun p => (lookupCT (srtfFinal l).completed p.pid).map (srtfRow p))).map
      (fun results =>
        (mergeTimeline (srtfFinal l).timeline, results, (srtfFinal l).timeline))) =
    some (mergeTimeline (srtfFinal l).timeline, rows, (srtfFinal l).timeline)
  rw [if_neg (by omega), hrows]
  rfl

theorem fcfsLoop_maxCT (ps : List Process) (t : Nat) (h : ps ≠ []) :
    (((fcfsLoop ps t).2.1.map (·.CT)).foldr max 0) = fcfsEnd ps t := by
  induction ps generalizing t with
  | nil => exact absurd rfl h
  | cons p ps ih =>
      by_cases hps : ps = []
      · subst hps
        simp [fcfsLoop, fcfsEnd]
      · have hih := ih (max t p.arrival + p.burst) hps
        have hge := fcfsEnd_ge ps (max t p.arrival + p.burst)
        simp only [fcfsLoop, List.map_cons, List.foldr_cons]
        rw [hih]
        show max (max t p.arrival + p.burst) (fcfsEnd ps (max t p.arrival + p.burst)) =
          fcfsEnd (p :: ps) t
        rw [fcfsEnd]
        omega

/-- C4: `fcfs_scheduler` runs the processes in ascending arrival order
with ties in original input order (independent of burst length — the
order `ArLex` mentions only arrivals and input ranks), gives each
process one whole-burst segment without preemption starting at
`max(current time, arrival)` whose end is its completion time
(`SegsChain`), and emits exactly `n` process execution segments. -/
theorem fcfs_order_segments_results (l : List Process) (hv : ValidProcs l) :
    List.Perm (sortStable byArrival l) l ∧
    (sortStable byArrival l).Pairwise (ArLex l) ∧
    (fcfs_scheduler l).1.map (·.pid) = (sortStable byArrival l).map (·.pid) ∧
    (fcfs_scheduler l).1.length = l.length ∧
    SegsChain 0 (sortStable byArrival l) (fcfs_scheduler l).1 ∧
    (fcfs_scheduler l).2.1.map (·.pid) = (fcfs_scheduler l).1.map (·.pid) ∧
    (fcfs_scheduler l).2.1.map (·.CT) = (fcfs_scheduler l).1.map (·.finish) := by
  obtain ⟨hnd, _, _⟩ := hv
  have hperm := sortStable_perm byArrival l
  have hpair := sorted_byArrival_pairwise hnd
  by_cases hl : l.isEmpty
  · have hnil : l = [] := List.isEmpty_iff.mp hl
    subst hnil
    refine ⟨by simp [sortStable], by simp [sortStable], ?_, ?_, ?_, ?_, ?_⟩ <;>
      simp [fcfs_scheduler, sortStable, SegsChain]
  · obtain ⟨h1, h2, h3, h4, h5⟩ := fcfsLoop_chain (sortStable byArrival l) 0
    have hfe : fcfs_scheduler l = fcfsLoop (sortStable byArrival l) 0 := by
      rw [fcfs_scheduler, if_neg hl]
    rw [hfe]
    refine ⟨hperm, hpair, h2, ?_, h1, h3, h4⟩
    rw [h5]
    exact hperm.length_eq

theorem int_le_trans_bool : ∀ (f : Process → Int) (a b c : Process),
    decide (f a ≤ f b) = true → decide (f b ≤ f c) = true → decide (f a ≤ f c) = true := by
  intro f a b c h1 h2
  simp only [decide_eq_true_eq] at *
  omega

theorem int_le_total_bool : ∀ (f : Process → Int) (a b : Process),
    decide (f a ≤ f b) = true ∨ decide (f b ≤ f a) = true := by
  intro f a b
  simp only [decide_eq_true_eq]
  omega

/-- C2: at each time unit `srtf_scheduler` runs the available process
(arrived and with positive remaining burst) with minimum remaining
burst, ties broken by earliest arrival and then by original input order;
a process arriving at the current unit with remaining time equal to an
earlier-arrived available process's remaining time is never the one
selected over it; and when a remaining burst reaches 0 the completion
time recorded is the time value right after the last executed unit
(visible in the step equation: the unit at `time` is followed by the
completion entry `time + 1`).  States after `k` loop iterations are
`srtfLoop … k (srtfInit …)`. -/
theorem srtf_unit_selection (l : List Process) (hv : ValidProcs l) (k : Nat) :
    (∀ p ∈ sortStable byArrival l,
      (p ∈ srtfAvailable (sortStable byArrival l)
          (srtfLoop (sortStable byArrival l) (sortStable byArrival l).length k
            (srtfInit (sortStable byArrival l))) ↔
        (p.arrival ≤ (srtfLoop (sortStable byArrival l) (sortStable byArrival l).length k
            (srtfInit (sortStable byArrival l))).time ∧
          0 < (srtfLoop (sortStable byArrival l) (sortStable byArrival l).length k
            (srtfInit (sortStable byArrival l))).rem p.pid))) ∧
    (∀ cur rest,
      sortStable (fun p q =>
          (srtfLoop (sortStable byArrival l) (sortStable byArrival l).length k
            (srtfInit (sortStable byArrival l))).rem p.pid ≤
          (srtfLoop (sortStable byArrival l) (sortStable byArrival l).length k
            (srtfInit (sortStable byArrival l))).rem q.pid)
        (srtfAvailable (sortStable byArrival l)
          (srtfLoop (sortStable byArrival l) (sortStable byArrival l).length k
            (srtfInit (sortStable byArrival l)))) = cur :: rest →
      cur ∈ srtfAvailable (sortStable byArrival l)
          (srtfLoop (sortStable byArrival l) (sortStable byArrival l).length k
            (srtfInit (sortStable byArrival l))) ∧
      (∀ q ∈ srtfAvailable (sortStable byArrival l)
          (srtfLoop (sortStable byArrival l) (sortStable byArrival l).length k
            (srtfInit (sortStable byArrival l))),
        (srtfLoop (sortStable byArrival l) (sortStable byArrival l).length k
            (srtfInit (sortStable byArrival l))).rem cur.pid ≤
          (srtfLoop (sortStable byArrival l) (sortStable byArrival l).length k
            (srtfInit (sortStable byArrival l))).rem q.pid) ∧
      (∀ q ∈ srtfAvailable (sortStable byArrival l)
          (srtfLoop (sortStable byArrival l) (sortStable byArrival l).length k
            (srtfInit (sortStable byArrival l))),
        q ≠ cur →
        (srtfLoop (sortStable byArrival l) (sortStable byArrival l).length k
            (srtfInit (sortStable byArrival l))).rem q.pid =
          (srtfLoop (sortStable byArrival l) (sortStable byArrival l).length k
            (srtfInit (sortStable byArrival l))).rem cur.pid →
        ArLex l cur q) ∧
      (∀ p ∈ srtfAvailable (sortStable byArrival l)
          (srtfLoop (sortStable byArrival l) (sortStable byArrival l).length k
            (srtfInit (sortStable byArrival l))),
        ∀ c ∈ srtfAvailable (sortStable byArrival l)
          (srtfLoop (sortStable byArrival l) (sortStable byArrival l).length k
            (srtfInit (sortStable byArrival l))),
        c.arrival < p.arrival →
        (srtfLoop (sortStable byArrival l) (sortStable byArrival l).length k
            (srtfInit (sortStable byArrival l))).rem p.pid =
          (srtfLoop (sortStable byArrival l) (sortStable byArrival l).length k
            (srtfInit (sortStable byArrival l))).rem c.pid →
        cur ≠ p) ∧
      srtfStep (sortStable byArrival l)
          (srtfLoop (sortStable byArrival l) (sortStable byArrival l).length k
            (srtfInit (sortStable byArrival l))) =
        { rem := fun j => if j = cur.pid then
              (srtfLoop (sortStable byArrival l) (sortStable byArrival l).length k
                (srtfInit (sortStable byArrival l))).rem j - 1
            else (srtfLoop (sortStable byArrival l) (sortStable byArrival l).length k
                (srtfInit (sortStable byArrival l))).rem j
          completed := if (srtfLoop (sortStable byArrival l) (sortStable byArrival l).length k
                (srtfInit (sortStable byArrival l))).rem cur.pid - 1 = 0 then
              (srtfLoop (sortStable byArrival l) (sortStable byArrival l).length k
                (srtfInit (sortStable byArrival l))).completed ++
                [(cur.pid, (srtfLoop (sortStable byArrival l) (sortStable byArrival l).length k
                  (srtfInit (sortStable byArrival l))).time + 1)]
            else (srtfLoop (sortStable byArrival l) (sortStable byArrival l).length k
                (srtfInit (sortStable byArrival l))).completed
          timeline := (srtfLoop (sortStable byArrival l) (sortStable byArrival l).length k
              (srtfInit (sortStable byArrival l))).timeline ++
            [⟨(srtfLoop (sortStable byArrival l) (sortStable byArrival l).length k
              (srtfInit (sortStable byArrival l))).time, cur.pid⟩]
          time := (srtfLoop (sortStable byArrival l) (sortStable byArrival l).length k
              (srtfInit (sortStable byArrival l))).time + 1 }) := by
  obtain ⟨hnd, hpos, hid⟩ := valid_sorted hv
  have inv : SrtfInv (sortStable byArrival l)
      (srtfLoop (sortStable byArrival l) (sortStable byArrival l).length k
        (srtfInit (sortStable byArrival l))) :=
    srtfLoop_inv hnd hid k (srtfInit_inv hnd hpos)
  have hpair : (srtfAvailable (sortStable byArrival l)
      (srtfLoop (sortStable byArrival l) (sortStable byArrival l).length k
        (srtfInit (sortStable byArrival l)))).Pairwise (ArLex l) :=
    (sorted_byArrival_pairwise hv.1).sublist (List.filter_sublist _)
  constructor
  · intro p hp
    rw [srtfAvailable_mem]
    constructor
    · rintro ⟨_, harr, hdone⟩
      exact ⟨harr, by have := inv.uncompleted_rem p hp hdone; omega⟩
    · rintro ⟨harr, hrem⟩
      refine ⟨hp, harr, ?_⟩
      cases hdone : srtfDone (srtfLoop (sortStable byArrival l)
          (sortStable byArrival l).length k (srtfInit (sortStable byArrival l))) p.pid with
      | false => rfl
      | true =>
          have := inv.completed_rem p hp hdone
          omega
  · intro cur rest hre
    have hmin := sortStable_head_min
      (int_le_trans_bool (fun p => (srtfLoop (sortStable byArrival l)
        (sortStable byArrival l).length k (srtfInit (sortStable byArrival l))).rem p.pid))
      (int_le_total_bool (fun p => (srtfLoop (sortStable byArrival l)
        (sortStable byArrival l).length k (srtfInit (sortStable byArrival l))).rem p.pid))
      hpair ((congrArg List.head? hre).trans rfl)
    have hties : ∀ q ∈ srtfAvailable (sortStable byArrival l)
        (srtfLoop (sortStable byArrival l) (sortStable byArrival l).length k
          (srtfInit (sortStable byArrival l))),
        q ≠ cur →
        (srtfLoop (sortStable byArrival l) (sortStable byArrival l).length k
            (srtfInit (sortStable byArrival l))).rem q.pid =
          (srtfLoop (sortStable byArrival l) (sortStable byArrival l).length k
            (srtfInit (sortStable byArrival l))).rem cur.pid → ArLex l cur q := by
      intro q hq hqc he
      exact (hmin.2 q hq hqc).2 (by simp [he])
    refine ⟨hmin.1, ?_, hties, ?_, srtfStep_of_run hre⟩
    · intro q hq
      by_cases hqc : q = cur
      · subst hqc
        omega
      · have := (hmin.2 q hq hqc).1
        simpa using this
    · intro p hp c hc hlt he hcp
      have h1 : c ≠ cur := by
        intro hcc
        rw [hcc, hcp] at hlt
        omega
      have h3 := hties c hc h1 (by rw [hcp]; omega)
      simp only [ArLex] at h3
      rcases h3 with h4 | ⟨h4, _⟩
      · rw [hcp] at h4
        omega
      · rw [hcp] at h4
        omega

theorem sjf_scheduler_eq {l : List Process} (hne : l ≠ []) :
    sjf_nonpreemptive_scheduler l =
      ((sjfFinal l).gantt, (sjfFinal l).results, (sjfFinal l).timeline) := by
  rw [sjf_nonpreemptive_scheduler, if_neg (by simp [hne])]
  rfl

theorem sjfFinal_done (l : List Process) :
    (sjfFinal l).remaining = [] ∧ (sjfFinal l).ready = [] := by
  refine sjfLoop_done l.length _ _ ?_ (Nat.le_refl _)
  have := (sortStable_perm byArrivalBurst l).length_eq
  simp [sjfInit, this]

theorem lookupCT_some_inv {completed : List (String × Nat)} {pid : String} {ct : Nat}
    (h : lookupCT completed pid = some ct) :
    ∃ c ∈ completed, c.1 = pid ∧ c.2 = ct := by
  rw [lookupCT] at h
  cases hf : completed.find? (fun x => x.1 = pid) with
  | none => rw [hf] at h; cases h
  | some c =>
      rw [hf] at h
      refine ⟨c, List.mem_of_find?_eq_some hf, by simpa using List.find?_some hf, ?_⟩
      simpa using h

/-- C5: for every valid process list and each of the three schedulers,
every result row satisfies `waitingTime ≥ 0`,
`turnaroundTime ≥ burstTime`, `completionTime = arrivalTime +
turnaroundTime` and `waitingTime = turnaroundTime − burstTime`. -/
theorem result_rows_invariant (l : List Process) (hv : ValidProcs l) :
    (∀ row ∈ (fcfs_scheduler l).2.1, RowOk row) ∧
    (∀ row ∈ (sjf_nonpreemptive_scheduler l).2.1, RowOk row) ∧
    (∀ g r t, srtf_scheduler l = some (g, r, t) → ∀ row ∈ r, RowOk row) := by
  obtain ⟨hnd, hpos, hid⟩ := hv
  refine ⟨?_, ?_, ?_⟩
  · intro row hrow
    by_cases hl : l.isEmpty
    · rw [fcfs_scheduler, if_pos hl] at hrow
      cases hrow
    · rw [fcfs_scheduler, if_neg hl] at hrow
      obtain ⟨p, _, h1, h2, h3, h4, h5, h6⟩ := fcfsLoop_rows _ _ row hrow
      refine ⟨?_, ?_, ?_, ?_⟩ <;> omega
  · intro row hrow
    by_cases hl : l.isEmpty
    · rw [sjf_nonpreemptive_scheduler, if_pos hl] at hrow
      cases hrow
    · rw [sjf_scheduler_eq (by simpa using hl)] at hrow
      have inv : SjfInv l (sjfFinal l) := sjfLoop_inv _ (sjfInit_inv hnd)
      obtain ⟨p, _, h1, h2, h3, h4, h5, h6⟩ := inv.rows_wf row hrow
      refine ⟨?_, ?_, ?_, ?_⟩ <;> omega
  · intro g r t heq row hrow
    by_cases hl : l = []
    · subst hl
      have : srtf_scheduler ([] : List Process) = some ([], [], []) := by
        rw [srtf_scheduler]
        rfl
      rw [this] at heq
      obtain ⟨rfl, rfl, rfl⟩ : g = [] ∧ r = [] ∧ t = [] := by
        have := Option.some.inj heq
        exact ⟨congrArg (·.1) this.symm, congrArg (·.2.1) this.symm,
          congrArg (·.2.2) this.symm⟩
      cases hrow
    · obtain ⟨rows, heq2, hrows⟩ := srtf_scheduler_eq ⟨hnd, hpos, hid⟩ hl
      rw [heq] at heq2
      obtain ⟨-, hr, -⟩ : g = mergeTimeline (srtfFinal l).timeline ∧ r = rows ∧
          t = (srtfFinal l).timeline := by
        have := Option.some.inj heq2
        exact ⟨congrArg (·.1) this, congrArg (·.2.1) this, congrArg (·.2.2) this⟩
      subst hr
      obtain ⟨inv, -⟩ := srtf_final_facts ⟨hnd, hpos, hid⟩
      obtain ⟨p, hp, hfp⟩ := mapM_option_mem_of_mem hrows row hrow
      cases hlk : lookupCT (srtfFinal l).completed p.pid with
      | none => rw [hlk] at hfp; cases hfp
      | some ct =>
          rw [hlk] at hfp
          have hrow_eq : row = srtfRow p ct := by simpa using hfp.symm
          obtain ⟨c, hc, hc1, hc2⟩ := lookupCT_some_inv hlk
          obtain ⟨q, hq, hq1, hq2, _⟩ := inv.completed_keys c hc
          have hqp : q = p := pid_inj (valid_sorted ⟨hnd, hpos, hid⟩).1 hq hp (hq1 ▸ hc1)
          subst hqp
          rw [hrow_eq]
          rw [hc2] at hq2
          refine ⟨?_, ?_, ?_, ?_⟩ <;> simp only [srtfRow] <;> omega

/-- C6: for every non-empty valid process list and each scheduler, the
timeline assigns exactly one occupant to each time unit, with times
contiguous from 0 up to the last completion time (its time column is
exactly `range' 0 maxCT`); for SRTF the busy units equal the total
burst and no remaining burst is ever negative at any loop state. -/
theorem timelines_contiguous (l : List Process) (hv : ValidProcs l) (hne : l ≠ []) :
    ((fcfs_scheduler l).2.2.map (·.time) =
      List.range' 0 (((fcfs_scheduler l).2.1.map (·.CT)).foldr max 0)) ∧
    ((sjf_nonpreemptive_scheduler l).2.2.map (·.time) =
      List.range' 0 (((sjf_nonpreemptive_scheduler l).2.1.map (·.CT)).foldr max 0)) ∧
    (∀ g r t, srtf_scheduler l = some (g, r, t) →
      (t.map (·.time) = List.range' 0 ((r.map (·.CT)).foldr max 0)) ∧
      t.countP (fun e => !(e.running = "IDLE")) = (l.map (·.burst)).sum) ∧
    (∀ k, ∀ p ∈ sortStable byArrival l,
      0 ≤ (srtfLoop (sortStable byArrival l) (sortStable byArrival l).length k
        (srtfInit (sortStable byArrival l))).rem p.pid) := by
  obtain ⟨hnd, hpos, hid⟩ := hv
  obtain ⟨hnd', hpos', hid'⟩ := valid_sorted ⟨hnd, hpos, hid⟩
  have hlemp : l.isEmpty = false := by simpa using hne
  have hsne : sortStable byArrival l ≠ [] := sortStable_ne_nil hne
  refine ⟨?_, ?_, ?_, ?_⟩
  · rw [fcfs_scheduler, if_neg (by simp [hlemp])]
    rw [fcfsLoop_timeline, fcfsLoop_maxCT _ _ hsne]
    simp
  · rw [sjf_scheduler_eq hne]
    have inv : SjfInv l (sjfFinal l) := sjfLoop_inv _ (sjfInit_inv hnd)
    obtain ⟨hd1, hd2⟩ := sjfFinal_done l
    rw [show ((sjfFinal l).gantt, (sjfFinal l).results, (sjfFinal l).timeline).2.2 =
      (sjfFinal l).timeline from rfl]
    rw [inv.timeline_times, inv.done_time hd1 hd2]
  · intro g r t heq
    obtain ⟨rows, heq2, hrows⟩ := srtf_scheduler_eq ⟨hnd, hpos, hid⟩ hne
    rw [heq] at heq2
    have heq3 := Option.some.inj heq2
    obtain ⟨-, hr, ht⟩ : g = mergeTimeline (srtfFinal l).timeline ∧ r = rows ∧
        t = (srtfFinal l).timeline :=
      ⟨congrArg (·.1) heq3, congrArg (·.2.1) heq3, congrArg (·.2.2) heq3⟩
    subst hr
    subst ht
    obtain ⟨inv, hcomplete⟩ := srtf_final_facts ⟨hnd, hpos, hid⟩
    have hdone_all : ∀ p ∈ sortStable byArrival l, srtfDone (srtfFinal l) p.pid = true := by
      intro p hp
      obtain ⟨c, hc, he⟩ := srtf_all_done ⟨hnd, hpos, hid⟩ p hp
      simp only [srtfDone, List.any_eq_true]
      exact ⟨c, hc, by simp [he]⟩
    have hrem_zero : ∀ p ∈ sortStable byArrival l, (srtfFinal l).rem p.pid = 0 :=
      fun p hp => inv.completed_rem p hp (hdone_all p hp)
    constructor
    · rw [inv.timeline_times]
      congr 1
      have hall : ∀ x ∈ r.map (·.CT), x ≤ (srtfFinal l).time := by
        intro x hx
        obtain ⟨row, hrow, rfl⟩ := List.mem_map.mp hx
        obtain ⟨p, hp, hfp⟩ := mapM_option_mem_of_mem hrows row hrow
        cases hlk : lookupCT (srtfFinal l).completed p.pid with
        | none => rw [hlk] at hfp; cases hfp
        | some ct =>
            rw [hlk] at hfp
            have hrow_eq : row = srtfRow p ct := by simpa using hfp.symm
            obtain ⟨c, hc, hc1, hc2⟩ := lookupCT_some_inv hlk
            obtain ⟨q, hq, hq1, hq2, hq3⟩ := inv.completed_keys c hc
            rw [hrow_eq]
            show ct ≤ (srtfFinal l).time
            omega
      have hmem : (srtfFinal l).time ∈ r.map (·.CT) := by
        obtain ⟨c0, hc0, hc0t⟩ := inv.last_completion hcomplete hsne
        obtain ⟨q, hq, hq1, _, _⟩ := inv.completed_keys c0 hc0
        obtain ⟨row, hrow, hfq⟩ := mapM_option_mem_of_mem' hrows q hq
        have hlk : lookupCT (srtfFinal l).completed q.pid = some c0.2 := by
          rw [← hq1]
          exact lookupCT_eq inv.completed_nodup hc0
        rw [hlk] at hfq
        have hrow_eq : row = srtfRow q c0.2 := by simpa using hfq.symm
        have : row.CT = (srtfFinal l).time := by rw [hrow_eq, ← hc0t]; rfl
        rw [← this]
        exact List.mem_map_of_mem (·.CT) hrow
      exact (foldr_max_of_mem hmem hall).symm
    · rw [countP_busy_eq hnd' hid' (srtfFinal l).timeline inv.timeline_occupants]
      have hcong : (sortStable byArrival l).map
          (fun p => (srtfFinal l).timeline.countP (fun e => e.running = p.pid)) =
          (sortStable byArrival l).map (·.burst) := by
        refine List.map_congr_left ?_
        intro p hp
        have h1 := inv.timeline_count p hp
        rw [hrem_zero p hp] at h1
        omega
      rw [hcong]
      exact ((sortStable_perm byArrival l).map (·.burst)).sum_eq
  · intro k p hp
    exact (srtfLoop_inv hnd' hid' k (srtfInit_inv hnd' hpos')).rem_nonneg p hp

theorem runsAux_ne_nil (c : String) (k : Nat) (xs : List String) :
    runsAux c k xs ≠ [] := by
  induction xs generalizing c k with
  | nil => simp [runsAux]
  | cons x xs ih =>
      rw [runsAux]
      by_cases h : x = c
      · rw [if_pos h]
        exact ih c (k + 1)
      · rw [if_neg h]
        exact List.cons_ne_nil _ _

theorem runsAux_join (c : String) (k : Nat) (xs : List String) :
    ((runsAux c k xs).map (fun rc => List.replicate rc.2 rc.1)).join =
      List.replicate k c ++ xs := by
  induction xs generalizing c k with
  | nil => simp [runsAux]
  | cons x xs ih =>
      rw [runsAux]
      by_cases h : x = c
      · rw [if_pos h, ih c (k + 1), h]
        rw [List.replicate_succ' k c]
        simp
      · rw [if_neg h]
        simp only [List.map_cons, List.join_cons, ih x 1]
        simp [List.replicate]

theorem runsAux_pos (c : String) (k : Nat) (hk : 1 ≤ k) (xs : List String) :
    ∀ rc ∈ runsAux c k xs, 1 ≤ rc.2 := by
  induction xs generalizing c k with
  | nil =>
      intro rc hrc
      simp only [runsAux, List.mem_singleton] at hrc
      subst hrc
      exact hk
  | cons x xs ih =>
      intro rc hrc
      rw [runsAux] at hrc
      by_cases h : x = c
      · rw [if_pos h] at hrc
        exact ih c (k + 1) (by omega) rc hrc
      · rw [if_neg h] at hrc
        rcases List.mem_cons.mp hrc with rfl | hrc'
        · exact hk
        · exact ih x 1 (Nat.le_refl _) rc hrc'

theorem runsAux_head (c : String) (k : Nat) (xs : List String) :
    ∃ k' rest, runsAux c k xs = (c, k') :: rest ∧ k ≤ k' := by
  induction xs generalizing c k with
  | nil => exact ⟨k, [], rfl, Nat.le_refl _⟩
  | cons x xs ih =>
      rw [runsAux]
      by_cases h : x = c
      · rw [if_pos h]
        obtain ⟨k', rest, he, hk⟩ := ih c (k + 1)
        exact ⟨k', rest, he, by omega⟩
      · rw [if_neg h]
        exact ⟨k, runsAux x 1 xs, rfl, Nat.le_refl _⟩

theorem runsAux_chain (c : String) (k : Nat) (xs : List String) :
    (runsAux c k xs).Chain' (fun a b => a.1 ≠ b.1) := by
  induction xs generalizing c k with
  | nil => simp [runsAux]
  | cons x xs ih =>
      rw [runsAux]
      by_cases h : x = c
      · rw [if_pos h]
        exact ih c (k + 1)
      · rw [if_neg h]
        obtain ⟨k', rest, he, _⟩ := runsAux_head x 1 xs
        rw [he]
        refine List.Chain'.cons ?_ (he ▸ ih x 1)
        exact fun hc => h hc.symm

theorem getLastD_of_ne_nil {R : List α} (h : R ≠ []) (d1 d2 : α) :
    R.getLastD d1 = R.getLastD d2 := by
  obtain ⟨y, hy⟩ := Option.isSome_iff_exists.mp (List.getLast?_isSome.mpr h)
  rw [List.getLastD_eq_getLast?, List.getLastD_eq_getLast?, hy]
  rfl

theorem mergeLoop_entries (occ : List String) :
    ∀ (cur : String) (k segStart : Nat) (segs : List Segment),
    mergeLoop cur segStart segs (entriesFrom (segStart + k) occ) =
      (segs ++ (segsFrom segStart ((runsAux cur k occ).dropLast)).filter
          (fun s => !(s.pid = "IDLE")),
        ((runsAux cur k occ).getLastD (cur, k)).1,
        segStart + (((runsAux cur k occ).dropLast).map (·.2)).sum) := by
  induction occ with
  | nil =>
      intro cur k segStart segs
      simp [entriesFrom, mergeLoop, runsAux, segsFrom]
  | cons x xs ih =>
      intro cur k segStart segs
      rw [entriesFrom, mergeLoop]
      by_cases h : x = cur
      · rw [if_neg (by simpa using h)]
        have harg : segStart + k + 1 = segStart + (k + 1) := by omega
        rw [harg, ih cur (k + 1) segStart segs]
        rw [runsAux, if_pos h,
          getLastD_of_ne_nil (runsAux_ne_nil cur (k + 1) xs) (cur, k + 1) (cur, k)]
      · rw [if_pos (by simpa using h)]
        have harg : segStart + k + 1 = (segStart + k) + 1 := by omega
        rw [show (⟨segStart + k, x⟩ : TimelineEntry).running = x from rfl,
          show (⟨segStart + k, x⟩ : TimelineEntry).time = segStart + k from rfl]
        rw [harg, ih x 1 (segStart + k)]
        rw [runsAux, if_neg h]
        have hR : runsAux x 1 xs ≠ [] := runsAux_ne_nil x 1 xs
        have hdrop : ((cur, k) :: runsAux x 1 xs).dropLast =
            (cur, k) :: (runsAux x 1 xs).dropLast := by
          cases hc : runsAux x 1 xs with
          | nil => exact absurd hc hR
          | cons a l => simp [List.dropLast_cons₂]
        rw [hdrop]
        have hlast : (((cur, k) :: runsAux x 1 xs).getLastD (cur, k)).1 =
            ((runsAux x 1 xs).getLastD (x, 1)).1 := by
          rw [List.getLastD_cons, getLastD_of_ne_nil hR (cur, k) (x, 1)]
        rw [hlast]
        have hsegs : segsFrom segStart ((cur, k) :: (runsAux x 1 xs).dropLast) =
            (⟨cur, segStart, segStart + k⟩ : Segment) ::
              segsFrom (segStart + k) ((runsAux x 1 xs).dropLast) := rfl
        rw [hsegs]
        rw [List.filter_cons]
        by_cases hc : cur = "IDLE"
        · rw [if_neg (by simpa using hc), if_neg (by simpa [hc] using hc)]
          simp only [List.map_cons, List.sum_cons]
          refine congrArg _ (congrArg _ ?_)
          show segStart + k + _ = segStart + (k + _)
          omega
        · rw [if_pos (by simpa using hc), if_pos (by simpa using hc)]
          simp only [List.map_cons, List.sum_cons, List.append_assoc, List.singleton_append]
          refine congrArg _ (congrArg _ ?_)
          show segStart + k + _ = segStart + (k + _)
          omega

theorem entriesFrom_of_times : ∀ (tl : List TimelineEntry) (t : Nat),
    tl.map (·.time) = List.range' t tl.length → tl = entriesFrom t (tl.map (·.running)) := by
  intro tl
  induction tl with
  | nil => intro t _; rfl
  | cons e rest ih =>
      intro t h
      rw [List.map_cons, List.length_cons, List.range'_succ] at h
      have h1 : e.time = t := by
        have := congrArg (·.head?) h
        simpa using this
      have h2 : rest.map (·.time) = List.range' (t + 1) rest.length := by
        have := congrArg (·.tail) h
        simpa using this
      rw [List.map_cons, entriesFrom]
      rw [← ih (t + 1) h2, ← h1]

theorem entriesFrom_getLast_time : ∀ (occ : List String) (t : Nat) (h : occ ≠ [])
    (h2 : entriesFrom t occ ≠ []),
    ((entriesFrom t occ).getLast h2).time = t + occ.length - 1 := by
  intro occ
  induction occ with
  | nil => intro t h _; exact absurd rfl h
  | cons c cs ih =>
      intro t _ h2
      by_cases hcs : cs = []
      · subst hcs
        simp [entriesFrom]
      · have h3 : entriesFrom (t + 1) cs ≠ [] := by
          cases hc : cs with
          | nil => exact absurd hc hcs
          | cons a l => simp [entriesFrom]
        have hcast : ((entriesFrom t (c :: cs)).getLast h2).time =
            (((⟨t, c⟩ : TimelineEntry) :: entriesFrom (t + 1) cs).getLast
              (List.cons_ne_nil _ _)).time := rfl
        rw [hcast, List.getLast_cons h3, ih (t + 1) hcs h3]
        simp only [List.length_cons]
        omega

theorem segsFrom_append_last (rs : List (String × Nat)) (r : String × Nat) :
    ∀ t, segsFrom t (rs ++ [r]) =
      segsFrom t rs ++ [⟨r.1, t + (rs.map (·.2)).sum, t + (rs.map (·.2)).sum + r.2⟩] := by
  induction rs with
  | nil => intro t; simp [segsFrom]
  | cons a l ih =>
      intro t
      rw [List.cons_append]
      show segsFrom t ((a.1, a.2) :: (l ++ [r])) = _
      rw [show ((a.1, a.2) : String × Nat) = a from rfl]
      rw [show segsFrom t (a :: (l ++ [r])) =
        (⟨a.1, t, t + a.2⟩ : Segment) :: segsFrom (t + a.2) (l ++ [r]) from rfl]
      rw [ih (t + a.2)]
      rw [show segsFrom t (a :: l) =
        (⟨a.1, t, t + a.2⟩ : Segment) :: segsFrom (t + a.2) l from rfl]
      simp only [List.cons_append, List.map_cons, List.sum_cons]
      have h1 : t + a.2 + (l.map (·.2)).sum = t + (a.2 + (l.map (·.2)).sum) := by omega
      rw [h1]

theorem runs_sum_len (c : String) (k : Nat) (xs : List String) :
    ((runsAux c k xs).map (·.2)).sum = k + xs.length := by
  have hj := congrArg List.length (runsAux_join c k xs)
  rw [List.length_join, List.length_append, List.length_replicate, List.map_map] at hj
  have : ((runsAux c k xs).map (List.length ∘ fun rc => List.replicate rc.2 rc.1)) =
      ((runsAux c k xs).map (·.2)) := by
    refine List.map_congr_left ?_
    intro rc _
    simp
  rw [this] at hj
  exact hj

/-- C8: on a unit-granularity timeline (times contiguous from 0, as
`srtf_scheduler` produces), the segment-merging step returns exactly the
segments of the maximal runs of equal occupants with idle runs dropped:
the runs rebuild the occupant sequence, adjacent runs have different
occupants (so each segment is maximal and boundaries sit exactly at
occupant changes), and every run is non-empty. -/
theorem merge_minimal_segments (tl : List TimelineEntry)
    (htl : tl.map (·.time) = List.range' 0 tl.length) :
    mergeTimeline tl =
      (segsFrom 0 (occruns (tl.map (·.running)))).filter (fun s => !(s.pid = "IDLE")) ∧
    ((occruns (tl.map (·.running))).map (fun rc => List.replicate rc.2 rc.1)).join =
      tl.map (·.running) ∧
    (occruns (tl.map (·.running))).Chain' (fun a b => a.1 ≠ b.1) ∧
    (∀ rc ∈ occruns (tl.map (·.running)), 1 ≤ rc.2) := by
  cases tl with
  | nil => exact ⟨rfl, rfl, by simp [occruns], by simp [occruns]⟩
  | cons e0 rest =>
      have hocc := entriesFrom_of_times (e0 :: rest) 0 htl
      have h0 : e0.time = 0 := by
        have := congrArg (·.head?) htl
        simp only [List.map_cons, List.length_cons, List.range'_succ] at this
        simpa using this
      have hcs : rest = entriesFrom 1 (rest.map (·.running)) := by
        have := congrArg (·.tail) hocc
        simpa [entriesFrom] using this
      have hR := runsAux_ne_nil e0.running 1 (rest.map (·.running))
      refine ⟨?_, ?_, ?_, ?_⟩
      · show (let r := mergeLoop e0.running e0.time [] rest;
          let segEnd := ((e0 :: rest).getLast (List.cons_ne_nil e0 rest)).time + 1;
          if r.2.1 ≠ "IDLE" then r.1 ++ [⟨r.2.1, r.2.2, segEnd⟩] else r.1) = _
        have hml : mergeLoop e0.running e0.time [] rest =
            ([] ++ (segsFrom 0 ((runsAux e0.running 1 (rest.map (·.running))).dropLast)).filter
                (fun s => !(s.pid = "IDLE")),
              ((runsAux e0.running 1 (rest.map (·.running))).getLastD (e0.running, 1)).1,
              0 + (((runsAux e0.running 1 (rest.map (·.running))).dropLast).map (·.2)).sum) := by
          have hml0 := mergeLoop_entries (rest.map (·.running)) e0.running 1 0 []
          rw [show entriesFrom (0 + 1) (rest.map (·.running)) = rest from hcs.symm] at hml0
          rw [h0]
          exact hml0
        have hlast_time : ((e0 :: rest).getLast (List.cons_ne_nil e0 rest)).time =
            rest.length := by
          have h2' : entriesFrom 0 (e0.running :: rest.map (·.running)) ≠ [] := by
            simp [entriesFrom]
          have h5 := entriesFrom_getLast_time (e0.running :: rest.map (·.running)) 0
            (List.cons_ne_nil _ _) h2'
          have h3 : (e0 :: rest).getLast? =
              (entriesFrom 0 (e0.running :: rest.map (·.running))).getLast? := by
            rw [show entriesFrom 0 (e0.running :: rest.map (·.running)) = e0 :: rest
              from (by simpa using hocc.symm)]
          have h1 := List.getLast?_eq_getLast (e0 :: rest) (List.cons_ne_nil e0 rest)
          have h2 := List.getLast?_eq_getLast _ h2'
          rw [h3, h2] at h1
          have h4 := Option.some.inj h1
          rw [h4] at h5
          rw [h5]
          simp
        rw [hml, hlast_time]
        simp only [List.nil_append, Nat.zero_add]
        have hsplit := List.dropLast_append_getLast hR
        have hlastD : (runsAux e0.running 1 (rest.map (·.running))).getLastD (e0.running, 1) =
            (runsAux e0.running 1 (rest.map (·.running))).getLast hR := by
          rw [List.getLastD_eq_getLast?, List.getLast?_eq_getLast _ hR]
          rfl
        have hocc2 : occruns ((e0 :: rest).map (·.running)) =
            runsAux e0.running 1 (rest.map (·.running)) := rfl
        rw [hocc2]
        rw [show segsFrom 0 (runsAux e0.running 1 (rest.map (·.running))) =
          segsFrom 0 (((runsAux e0.running 1 (rest.map (·.running))).dropLast) ++
            [(runsAux e0.running 1 (rest.map (·.running))).getLast hR]) from by rw [hsplit]]
        rw [segsFrom_append_last]
        rw [List.filter_append]
        have hsum : (((runsAux e0.running 1 (rest.map (·.running))).dropLast).map (·.2)).sum +
            ((runsAux e0.running 1 (rest.map (·.running))).getLast hR).2 =
            1 + (rest.map (·.running)).length := by
          have h5 := runs_sum_len e0.running 1 (rest.map (·.running))
          rw [show runsAux e0.running 1 (rest.map (·.running)) =
            ((runsAux e0.running 1 (rest.map (·.running))).dropLast ++
              [(runsAux e0.running 1 (rest.map (·.running))).getLast hR]) from hsplit.symm]
            at h5
          rw [List.map_append, List.sum_append] at h5
          simp only [List.map_cons, List.map_nil, List.sum_cons, List.sum_nil] at h5
          omega
        rw [hlastD]
        have hfin2 : rest.length + 1 =
            0 + (((runsAux e0.running 1 (rest.map (·.running))).dropLast).map (·.2)).sum +
              ((runsAux e0.running 1 (rest.map (·.running))).getLast hR).2 := by
          rw [List.length_map] at hsum
          omega
        rw [hfin2]
        by_cases hidle : ((runsAux e0.running 1 (rest.map (·.running))).getLast hR).1 = "IDLE"
        · rw [if_neg (by simpa using hidle)]
          simp [hidle]
        · rw [if_pos (by simpa using hidle)]
          simp [hidle]
      · show ((runsAux e0.running 1 (rest.map (·.running))).map
            (fun rc => List.replicate rc.2 rc.1)).join = _
        rw [runsAux_join]
        simp [List.replicate]
      · exact runsAux_chain e0.running 1 (rest.map (·.running))
      · exact runsAux_pos e0.running 1 (Nat.le_refl _) (rest.map (·.running))

lemma fillCell_fillCell (c : Cell) : fillCell (fillCell c) = fillCell c := by
  cases c <;> rfl

lemma fillRow_fillRow (r : String → Cell) : fillRow (fillRow r) = fillRow r :=
  funext fun c => fillCell_fillCell (r c)

lemma dfEmpty_fillDF (df : DataFrame) : dfEmpty (fillDF df) = dfEmpty df := by
  cases hr : df.rows <;> simp [dfEmpty, fillDF, hr]

lemma rowToProcess_eq (hp : Bool) (r : String → Cell) :
    rowToProcess hp r =
      (match coerceInt (r "arrival") with
      | none => .error (pyStr (r "pid"), .notNumeric "arrival")
      | some arrival =>
        match coerceInt (r "burst") with
        | none => .error (pyStr (r "pid"), .notNumeric "burst")
        | some burst =>
          match (if hp then coerceInt (r "priority") else some 0) with
          | none => .error (pyStr (r "pid"), .notNumeric "priority")
          | some priority =>
            if arrival < 0 then
              .error (pyStr (r "pid"), .negativeArrival (pyStr (r "pid")))
            else if burst ≤ 0 then
              .error (pyStr (r "pid"), .nonPositiveBurst (pyStr (r "pid")))
            else .ok ⟨pyStr (r "pid"), arrival.toNat, burst.toNat, priority⟩) := rfl

lemma truncRat_zero : truncRat 0 = 0 := rfl

lemma coerceInt_fillCell_missing : coerceInt (fillCell Cell.missing) = some 0 := rfl

lemma parse_df_eq (df : DataFrame) (hde : dfEmpty df = false)
    (hmc : missingColumnsOf df.columns = []) :
    parse_df_to_processes df =
      ((parsedRows df).mapM (rowToProcess (df.columns.contains "priority"))).mapError
        (fun e => ParseError.invalidData e.1 e.2) := by
  simp only [parse_df_to_processes, hde, hmc, parsedRows, Bool.false_eq_true, if_false,
    List.isEmpty_nil, Bool.not_true, if_true]

lemma mapM_ok_forall {α β ε : Type} (f : α → Except ε β) :
    ∀ (l : List α) (l' : List β), l.mapM f = .ok l' → ∀ a ∈ l, ∃ b, f a = .ok b := by
  intro l
  induction l with
  | nil => intro l' _ a ha; cases ha
  | cons x xs ih =>
    intro l' h a ha
    rw [List.mapM_cons] at h
    cases hfx : f x with
    | error e => rw [hfx] at h; exact absurd h (fun hc => Except.noConfusion hc)
    | ok b =>
      rw [hfx] at h
      cases hxs : xs.mapM f with
      | error e => rw [hxs] at h; exact absurd h (fun hc => Except.noConfusion hc)
      | ok bs =>
        rcases List.mem_cons.mp ha with rfl | ha'
        · exact ⟨b, hfx⟩
        · exact ih bs hxs a ha'

lemma mapM_error_mem {α β ε : Type} (f : α → Except ε β) :
    ∀ (l : List α) (e : ε), l.mapM f = .error e → ∃ a ∈ l, f a = .error e := by
  intro l
  induction l with
  | nil => intro e h; exact absurd h (fun hc => Except.noConfusion hc)
  | cons x xs ih =>
    intro e h
    rw [List.mapM_cons] at h
    cases hfx : f x with
    | error e' =>
      rw [hfx] at h
      have heq : e' = e := Except.error.inj h
      exact ⟨x, List.mem_cons_self x xs, heq ▸ hfx⟩
    | ok b =>
      rw [hfx] at h
      cases hxs : xs.mapM f with
      | error e' =>
        rw [hxs] at h
        have heq : e' = e := Except.error.inj h
        obtain ⟨a, ha, hfa⟩ := ih e' hxs
        exact ⟨a, List.mem_cons_of_mem x ha, heq ▸ hfa⟩
      | ok bs => rw [hxs] at h; exact absurd h (fun hc => Except.noConfusion hc)

/-- C9: for every non-empty results collection, `results_table_with_metrics`
returns the arithmetic mean of the TAT column and of the WT column (sum
divided by a positive count, so no division by zero occurs); for the empty
collection it returns the empty table with averages 0 and 0. -/
theorem metrics_means_and_empty_zero :
    (∀ rows : List ResultRow, rows ≠ [] →
      (results_table_with_metrics rows).2.1
          = ((rows.map (fun r => (r.TAT : ℚ))).sum) / (rows.length : ℚ) ∧
      (results_table_with_metrics rows).2.2
          = ((rows.map (fun r => (r.WT : ℚ))).sum) / (rows.length : ℚ) ∧
      0 < rows.length) ∧
    results_table_with_metrics [] = ([], 0, 0) := by
  constructor
  · intro rows h
    have hne : rows.isEmpty = false := by
      cases rows with
      | nil => exact absurd rfl h
      | cons x xs => rfl
    refine ⟨?_, ?_, ?_⟩
    · simp [results_table_with_metrics, hne]
    · simp [results_table_with_metrics, hne]
    · exact List.length_pos.mpr h
  · rfl

theorem metrics_means_witness :
    ((⟨"A", 0, 2, 4, 4, 2⟩ : ResultRow) :: []) ≠ [] ∧
    ((results_table_with_metrics [⟨"A", 0, 2, 4, 4, 2⟩]).2.1
        = ((([⟨"A", 0, 2, 4, 4, 2⟩] : List ResultRow).map (fun r => (r.TAT : ℚ))).sum)
            / (([⟨"A", 0, 2, 4, 4, 2⟩] : List ResultRow).length : ℚ) ∧
      (results_table_with_metrics [⟨"A", 0, 2, 4, 4, 2⟩]).2.2
        = ((([⟨"A", 0, 2, 4, 4, 2⟩] : List ResultRow).map (fun r => (r.WT : ℚ))).sum)
            / (([⟨"A", 0, 2, 4, 4, 2⟩] : List ResultRow).length : ℚ) ∧
      0 < ([⟨"A", 0, 2, 4, 4, 2⟩] : List ResultRow).length) :=
  ⟨by simp, metrics_means_and_empty_zero.1 [⟨"A", 0, 2, 4, 4, 2⟩] (by simp)⟩

/-- C10: `parse_df_to_processes` replaces every missing (NaN) cell with 0
before validation: parsing the fillna-image of a table equals parsing the
table itself; a row whose arrival cell is missing is accepted with
arrivalTime 0 and is never rejected for its arrival; a row whose burst cell
is missing is rejected by the positive-burst rule (naming its pid) rather
than reported as a missing value; and a fractional numeric cell is
truncated toward zero by the integer coercion (floor when non-negative,
ceiling when negative) rather than rejected as non-integral. -/
theorem fillna_zero_before_validation :
    (∀ df : DataFrame, parse_df_to_processes (fillDF df) = parse_df_to_processes df) ∧
    (∀ (hp : Bool) (r : String → Cell), r "arrival" = Cell.missing →
      (∀ p, rowToProcess hp (fillRow r) = .ok p → p.arrival = 0) ∧
      (∀ pid e, rowToProcess hp (fillRow r) = .error (pid, e) →
        e ≠ .notNumeric "arrival" ∧ e ≠ .negativeArrival pid)) ∧
    (∀ (hp : Bool) (r : String → Cell) (a : Int), r "burst" = Cell.missing →
      coerceInt (fillRow r "arrival") = some a → 0 ≤ a →
      (hp = true → (coerceInt (fillRow r "priority")).isSome = true) →
      rowToProcess hp (fillRow r)
        = .error (pyStr (fillRow r "pid"), .nonPositiveBurst (pyStr (fillRow r "pid")))) ∧
    (∀ q : ℚ, coerceInt (.num q) = some (truncRat q) ∧
      (0 ≤ q → truncRat q = ⌊q⌋) ∧ (q < 0 → truncRat q = ⌈q⌉)) := by
  refine ⟨?_, ?_, ?_, ?_⟩
  · intro df
    obtain ⟨cols, rows⟩ := df
    have hrows : (rows.map fillRow).map fillRow = rows.map fillRow := by
      rw [List.map_map, show fillRow ∘ fillRow = fillRow from funext fillRow_fillRow]
    have hde : dfEmpty ⟨cols, rows.map fillRow⟩ = dfEmpty ⟨cols, rows⟩ := by
      cases rows <;> rfl
    by_cases he : dfEmpty (⟨cols, rows⟩ : DataFrame) = true
    · simp only [parse_df_to_processes, fillDF, hde, he, if_true]
    · simp only [parse_df_to_processes, fillDF, hde, if_neg he]
      rw [hrows]
  · intro hp r harr
    have ha0 : coerceInt (fillRow r "arrival") = some 0 := by
      show coerceInt (fillCell (r "arrival")) = some 0
      rw [harr]
      exact coerceInt_fillCell_missing
    constructor
    · intro p hok
      rw [rowToProcess_eq] at hok
      simp only [ha0] at hok
      cases hb : coerceInt (fillRow r "burst") with
      | none => rw [hb] at hok; exact Except.noConfusion hok
      | some b =>
        simp only [hb] at hok
        cases hpr : (if hp then coerceInt (fillRow r "priority") else some 0) with
        | none => rw [hpr] at hok; exact Except.noConfusion hok
        | some pr =>
          simp only [hpr] at hok
          rw [if_neg (by decide : ¬((0 : Int) < 0))] at hok
          by_cases hb0 : b ≤ 0
          · rw [if_pos hb0] at hok; exact Except.noConfusion hok
          · rw [if_neg hb0] at hok
            have hpe := Except.ok.inj hok
            rw [← hpe]
            rfl
    · intro pid e herr
      rw [rowToProcess_eq] at herr
      simp only [ha0] at herr
      cases hb : coerceInt (fillRow r "burst") with
      | none =>
        simp only [hb] at herr
        have h2 := Except.error.inj herr
        have he2 : e = RowError.notNumeric "burst" := (Prod.mk.injEq _ _ _ _ ▸ h2).2.symm
        rw [he2]
        exact ⟨by decide, fun hc => RowError.noConfusion hc⟩
      | some b =>
        simp only [hb] at herr
        cases hpr : (if hp then coerceInt (fillRow r "priority") else some 0) with
        | none =>
          simp only [hpr] at herr
          have h2 := Except.error.inj herr
          have he2 : e = RowError.notNumeric "priority" := (Prod.mk.injEq _ _ _ _ ▸ h2).2.symm
          rw [he2]
          exact ⟨by decide, fun hc => RowError.noConfusion hc⟩
        | some pr =>
          simp only [hpr] at herr
          rw [if_neg (by decide : ¬((0 : Int) < 0))] at herr
          by_cases hb0 : b ≤ 0
          · rw [if_pos hb0] at herr
            have h2 := Except.error.inj herr
            have he2 : e = RowError.nonPositiveBurst (pyStr (fillRow r "pid")) :=
              (Prod.mk.injEq _ _ _ _ ▸ h2).2.symm
            rw [he2]
            exact ⟨fun hc => RowError.noConfusion hc, fun hc => RowError.noConfusion hc⟩
          · rw [if_neg hb0] at herr
            exact Except.noConfusion herr
  · intro hp r a hbm ha hapos hpri
    have hb0 : coerceInt (fillRow r "burst") = some 0 := by
      show coerceInt (fillCell (r "burst")) = some 0
      rw [hbm]
      exact coerceInt_fillCell_missing
    rw [rowToProcess_eq]
    simp only [ha, hb0]
    cases hp with
    | false =>
      simp only [Bool.false_eq_true, if_false]
      rw [if_neg (not_lt.mpr hapos), if_pos (by decide : (0 : Int) ≤ 0)]
    | true =>
      obtain ⟨pr, hpr⟩ := Option.isSome_iff_exists.mp (hpri rfl)
      simp only [if_true, hpr]
      rw [if_neg (not_lt.mpr hapos), if_pos (by decide : (0 : Int) ≤ 0)]
  · intro q
    refine ⟨rfl, ?_, ?_⟩
    · intro hq
      have hnum : 0 ≤ q.num := Rat.num_nonneg.mpr hq
      show q.num.tdiv q.den = ⌊q⌋
      rw [Int.tdiv_eq_ediv hnum (Int.natCast_nonneg q.den), Rat.floor_def]
    · intro hq
      have hnum : q.num < 0 := Rat.num_neg.mpr hq
      have h1 : truncRat q = -((-q.num).tdiv (q.den : Int)) := by
        show q.num.tdiv q.den = _
        rw [Int.neg_tdiv, neg_neg]
      have h2 : (-q.num).tdiv (q.den : Int) = (-q.num) / (q.den : Int) :=
        Int.tdiv_eq_ediv (by omega) (Int.natCast_nonneg q.den)
      have h3 : ⌊-q⌋ = (-q.num) / ((q.den : Int)) := by
        rw [Rat.floor_def, Rat.num_neg_eq_neg_num, Rat.den_neg_eq_den]
      rw [h1, h2, ← h3, Int.floor_neg, neg_neg]

theorem fillna_zero_before_validation_witness :
    rowMissingArrival "arrival" = Cell.missing ∧
    (⟨"PY", 0, 3, 0⟩ : Process).arrival = 0 ∧
    rowToProcess false (fillRow rowMissingBurst)
      = .error (pyStr (fillRow rowMissingBurst "pid"),
          .nonPositiveBurst (pyStr (fillRow rowMissingBurst "pid"))) ∧
    truncRat 0 = ⌊(0 : ℚ)⌋ ∧
    ((-1 : ℚ) < 0 ∧ truncRat (-1) = ⌈(-1 : ℚ)⌉) ∧
    parse_df_to_processes (fillDF ⟨["arrival", "burst"], []⟩)
      = parse_df_to_processes ⟨["arrival", "burst"], []⟩ :=
  ⟨rfl,
   (fillna_zero_before_validation.2.1 false rowMissingArrival rfl).1 ⟨"PY", 0, 3, 0⟩ rfl,
   fillna_zero_before_validation.2.2.1 false rowMissingBurst 0 rfl rfl (by decide)
     (fun h => absurd h (by decide)),
   (fillna_zero_before_validation.2.2.2 0).2.1 (le_refl 0),
   ⟨by decide, (fillna_zero_before_validation.2.2.2 (-1)).2.2 (by decide)⟩,
   fillna_zero_before_validation.1 ⟨["arrival", "burst"], []⟩⟩

/-- C7: `parse_df_to_processes` fails with an error naming exactly the
missing required columns when `arrival` or `burst` is absent; a failing
row produces an error naming the offending process id and the violated
rule (non-numeric field, negative arrival, or non-positive burst), and the
whole parse fails with that id and rule; an empty table yields the empty
list rather than an error; and validation is all-or-nothing — no process
list is produced when any row is invalid. -/
theorem parse_errors_and_all_or_nothing :
    (∀ df : DataFrame, dfEmpty df = false →
      ("arrival" ∉ df.columns ∨ "burst" ∉ df.columns) →
      parse_df_to_processes df = .error (.missingColumns (missingColumnsOf df.columns)) ∧
      missingColumnsOf df.columns ≠ [] ∧
      (∀ c, c ∈ missingColumnsOf df.columns ↔
        ((c = "arrival" ∨ c = "burst") ∧ c ∉ df.columns))) ∧
    (∀ (hp : Bool) (r : String → Cell) (pid : String) (e : RowError),
      rowToProcess hp r = .error (pid, e) →
      pid = pyStr (r "pid") ∧
      ((e = .notNumeric "arrival" ∧ coerceInt (r "arrival") = none) ∨
       (e = .notNumeric "burst" ∧ coerceInt (r "burst") = none) ∨
       (e = .notNumeric "priority" ∧ hp = true ∧ coerceInt (r "priority") = none) ∨
       (e = .negativeArrival pid ∧ ∃ a, coerceInt (r "arrival") = some a ∧ a < 0) ∨
       (e = .nonPositiveBurst pid ∧ ∃ b, coerceInt (r "burst") = some b ∧ b ≤ 0))) ∧
    (∀ df : DataFrame, dfEmpty df = true → parse_df_to_processes df = .ok []) ∧
    (∀ df : DataFrame, dfEmpty df = false → missingColumnsOf df.columns = [] →
      (∃ r ∈ parsedRows df, ∃ pe,
        rowToProcess (df.columns.contains "priority") r = .error pe) →
      (∃ r ∈ parsedRows df, ∃ pid e,
        rowToProcess (df.columns.contains "priority") r = .error (pid, e) ∧
        parse_df_to_processes df = .error (.invalidData pid e)) ∧
      ∀ l, parse_df_to_processes df ≠ .ok l) := by
  refine ⟨?_, ?_, ?_, ?_⟩
  · intro df hde hmiss
    have hmem : ∀ c, c ∈ missingColumnsOf df.columns ↔
        ((c = "arrival" ∨ c = "burst") ∧ c ∉ df.columns) := by
      intro c
      simp [missingColumnsOf, List.mem_filter]
    have hne : missingColumnsOf df.columns ≠ [] := by
      rcases hmiss with h | h
      · have h1 : "arrival" ∈ missingColumnsOf df.columns :=
          (hmem "arrival").mpr ⟨Or.inl rfl, h⟩
        intro hc
        rw [hc] at h1
        cases h1
      · have h1 : "burst" ∈ missingColumnsOf df.columns :=
          (hmem "burst").mpr ⟨Or.inr rfl, h⟩
        intro hc
        rw [hc] at h1
        cases h1
    refine ⟨?_, hne, hmem⟩
    obtain ⟨x, xs, hxx⟩ := List.exists_cons_of_ne_nil hne
    simp only [parse_df_to_processes, hde, Bool.false_eq_true, if_false, hxx,
      List.isEmpty_cons, Bool.not_false, if_true]
  · intro hp r pid e herr
    rw [rowToProcess_eq] at herr
    cases harr : coerceInt (r "arrival") with
    | none =>
      simp only [harr] at herr
      have h2 := Except.error.inj herr
      have h3 : pyStr (r "pid") = pid := congrArg Prod.fst h2
      have h4 : RowError.notNumeric "arrival" = e := congrArg Prod.snd h2
      exact ⟨h3.symm, Or.inl ⟨h4.symm, rfl⟩⟩
    | some a =>
      simp only [harr] at herr
      cases hb : coerceInt (r "burst") with
      | none =>
        simp only [hb] at herr
        have h2 := Except.error.inj herr
        have h3 : pyStr (r "pid") = pid := congrArg Prod.fst h2
        have h4 : RowError.notNumeric "burst" = e := congrArg Prod.snd h2
        exact ⟨h3.symm, Or.inr (Or.inl ⟨h4.symm, rfl⟩)⟩
      | some b =>
        simp only [hb] at herr
        cases hpr : (if hp then coerceInt (r "priority") else some 0) with
        | none =>
          simp only [hpr] at herr
          have h2 := Except.error.inj herr
          have h3 : pyStr (r "pid") = pid := congrArg Prod.fst h2
          have h4 : RowError.notNumeric "priority" = e := congrArg Prod.snd h2
          cases hhp : hp with
          | false => rw [hhp] at hpr; exact absurd hpr (by simp)
          | true =>
            rw [hhp, if_pos rfl] at hpr
            exact ⟨h3.symm, Or.inr (Or.inr (Or.inl ⟨h4.symm, rfl, hpr⟩))⟩
        | some pr =>
          simp only [hpr] at herr
          by_cases hlt : a < 0
          · rw [if_pos hlt] at herr
            have h2 := Except.error.inj herr
            have h3 : pyStr (r "pid") = pid := congrArg Prod.fst h2
            have h4 : RowError.negativeArrival (pyStr (r "pid")) = e := congrArg Prod.snd h2
            refine ⟨h3.symm, Or.inr (Or.inr (Or.inr (Or.inl ⟨?_, a, rfl, hlt⟩)))⟩
            rw [← h4, h3]
          · rw [if_neg hlt] at herr
            by_cases hble : b ≤ 0
            · rw [if_pos hble] at herr
              have h2 := Except.error.inj herr
              have h3 : pyStr (r "pid") = pid := congrArg Prod.fst h2
              have h4 : RowError.nonPositiveBurst (pyStr (r "pid")) = e := congrArg Prod.snd h2
              refine ⟨h3.symm, Or.inr (Or.inr (Or.inr (Or.inr ⟨?_, b, rfl, hble⟩)))⟩
              rw [← h4, h3]
            · rw [if_neg hble] at herr
              exact Except.noConfusion herr
  · intro df hde
    simp [parse_df_to_processes, hde]
  · intro df hde hmc hex
    have hpeq := parse_df_eq df hde hmc
    cases hm : (parsedRows df).mapM (rowToProcess (df.columns.contains "priority")) with
    | ok l' =>
      obtain ⟨r, hr, pe, hpe⟩ := hex
      obtain ⟨b, hbok⟩ := mapM_ok_forall _ _ _ hm r hr
      rw [hpe] at hbok
      exact absurd hbok (fun hc => Except.noConfusion hc)
    | error pe =>
      obtain ⟨r, hr, hre⟩ := mapM_error_mem _ _ _ hm
      obtain ⟨pid, e⟩ := pe
      refine ⟨⟨r, hr, pid, e, hre, ?_⟩, ?_⟩
      · rw [hpeq, hm]
        rfl
      · intro l hcon
        rw [hpeq, hm] at hcon
        exact Except.noConfusion hcon

theorem parse_errors_witness :
    (dfEmpty ⟨["pid"], [fun _ => Cell.num 1]⟩ = false ∧
     ("arrival" : String) ∉ ["pid"] ∧
     parse_df_to_processes ⟨["pid"], [fun _ => Cell.num 1]⟩
       = .error (.missingColumns (missingColumnsOf ["pid"]))) ∧
    (rowToProcess false rowNegArrival = .error ("P9", .negativeArrival "P9") ∧
     ("P9" : String) = pyStr (rowNegArrival "pid")) ∧
    parse_df_to_processes ⟨["arrival", "burst"], []⟩ = .ok [] ∧
    parse_df_to_processes dfBad ≠ .ok [] :=
  ⟨⟨rfl, by decide,
    (parse_errors_and_all_or_nothing.1 ⟨["pid"], [fun _ => Cell.num 1]⟩ rfl
      (Or.inl (by decide))).1⟩,
   ⟨rfl,
    (parse_errors_and_all_or_nothing.2.1 false rowNegArrival "P9"
      (.negativeArrival "P9") rfl).1⟩,
   parse_errors_and_all_or_nothing.2.2.1 ⟨["arrival", "burst"], []⟩ rfl,
   (parse_errors_and_all_or_nothing.2.2.2 dfBad rfl rfl
      ⟨fillRow rowNegArrival, List.mem_cons_self _ _,
       ("P9", RowError.negativeArrival "P9"), rfl⟩).2 []⟩

theorem srtf_unit_selection_witness :
    ValidProcs demoProcs ∧
    (⟨"P1", 0, 5, 0⟩ : Process) ∈ sortStable byArrival demoProcs ∧
    ((⟨"P1", 0, 5, 0⟩ : Process) ∈ srtfAvailable (sortStable byArrival demoProcs)
        (srtfDemoState 0) ↔
      ((⟨"P1", 0, 5, 0⟩ : Process).arrival ≤ (srtfDemoState 0).time ∧
        0 < (srtfDemoState 0).rem "P1")) :=
  ⟨by unfold ValidProcs; decide, by decide,
   (srtf_unit_selection demoProcs (by unfold ValidProcs; decide) 0).1 ⟨"P1", 0, 5, 0⟩ (by decide)⟩

theorem sjf_decision_point_selection_witness :
    ValidProcs demoProcs ∧
    (⟨"P1", 0, 5, 0⟩ : Process) ∈ demoProcs ∧
    ((⟨"P1", 0, 5, 0⟩ : Process) ∈ sjfRdy (sjfDemoState 0) ↔
      ((⟨"P1", 0, 5, 0⟩ : Process).arrival ≤ (sjfDemoState 0).time ∧
        "P1" ∉ (sjfDemoState 0).results.map (·.pid))) :=
  ⟨by unfold ValidProcs; decide, by decide,
   (sjf_decision_point_selection demoProcs (by unfold ValidProcs; decide) 0).1 ⟨"P1", 0, 5, 0⟩ (by decide)⟩

theorem fcfs_order_segments_results_witness :
    ValidProcs demoProcs ∧
    (List.Perm (sortStable byArrival demoProcs) demoProcs ∧
     (sortStable byArrival demoProcs).Pairwise (ArLex demoProcs) ∧
     (fcfs_scheduler demoProcs).1.map (·.pid) =
       (sortStable byArrival demoProcs).map (·.pid) ∧
     (fcfs_scheduler demoProcs).1.length = demoProcs.length ∧
     SegsChain 0 (sortStable byArrival demoProcs) (fcfs_scheduler demoProcs).1 ∧
     (fcfs_scheduler demoProcs).2.1.map (·.pid) = (fcfs_scheduler demoProcs).1.map (·.pid) ∧
     (fcfs_scheduler demoProcs).2.1.map (·.CT) =
       (fcfs_scheduler demoProcs).1.map (·.finish)) :=
  ⟨by unfold ValidProcs; decide, fcfs_order_segments_results demoProcs (by unfold ValidProcs; decide)⟩

theorem result_rows_invariant_witness :
    ValidProcs demoProcs ∧ (⟨"P1", 0, 5, 5, 5, 0⟩ : ResultRow) ∈ (fcfs_scheduler demoProcs).2.1 ∧
    RowOk ⟨"P1", 0, 5, 5, 5, 0⟩ :=
  ⟨by unfold ValidProcs; decide, by decide,
   (result_rows_invariant demoProcs (by unfold ValidProcs; decide)).1 ⟨"P1", 0, 5, 5, 5, 0⟩ (by decide)⟩

theorem timelines_contiguous_witness :
    ValidProcs demoProcs ∧ demoProcs ≠ [] ∧
    ((fcfs_scheduler demoProcs).2.2.map (·.time) =
      List.range' 0 (((fcfs_scheduler demoProcs).2.1.map (·.CT)).foldr max 0)) :=
  ⟨by unfold ValidProcs; decide, by decide, (timelines_contiguous demoProcs (by unfold ValidProcs; decide) (by decide)).1⟩

theorem merge_minimal_segments_witness :
    demoTimeline.map (·.time) = List.range' 0 demoTimeline.length ∧
    mergeTimeline demoTimeline =
      (segsFrom 0 (occruns (demoTimeline.map (·.running)))).filter
        (fun s => !(s.pid = "IDLE")) :=
  ⟨by decide, (merge_minimal_segments demoTimeline (by decide)).1⟩
